import Mathlib

/-!
DocuScanner native layer: corner detection and perspective rectification.

A shallow embedding of `app/src/main/cpp/docuscanner.cpp`.

* `detectDocumentCornersNative` is embedded from the point where `cv::findContours`
  has produced the contour list: sorting by area, the scanning loop, and the corner
  ordering applied to the first 4-vertex polygon.
* `applyPerspectiveTransformNative` is embedded as a state transformer that records
  which steps ran: the size guard, the loop reading the corners, the target size, the
  destination rectangle, the homography and the warp.

Library functions (`std::sort`, `cv::contourArea`, `cv::arcLength`, `cv::approxPolyDP`,
`cv::getPerspectiveTransform`, `cv::warpPerspective`) are parameters.

Numbers.  The detector is generic in the number type `F` standing for `float` and
`double`: only its order, its addition and its multiplication are used, with no law
assumed, and the conversion from `int` is a parameter, so rounded arithmetic is an
instance.  The rectifier computes edge lengths, and there the arithmetic is the IEEE 754
arithmetic of the source: a `double` coordinate is converted to `float`, coordinates are
subtracted in `float`, `cv::norm` squares, adds and takes the square root in `double`,
and the result is stored in a `float`, every step rounding to nearest with ties to even,
with infinities and NaN.  A `static_cast<int>` outside the range of `int` yields what
the platform yields, a parameter.
-/

namespace DocuScanner

/-! ## Data model -/

/-- The type `cv::Point`: integer pixel coordinates. -/
structure Point where
  x : Int
  y : Int
  deriving DecidableEq, Repr

/-- The type `cv::Point2f` over the number type `F`. -/
structure Point2f (F : Type) where
  x : F
  y : F
  deriving DecidableEq, Repr

/-- A contour as returned by `cv::findContours`: `std::vector<cv::Point>`. -/
abbrev Contour := List Point

/-- The contract of `std::sort` with comparator `comp`: the result is a rearrangement of
the input in which no element is `comp`-less than an element before it.  The relative
order of equivalent elements is left open. -/
def SortsBy {α : Type} (comp : α → α → Bool) (f : List α → List α) : Prop :=
  ∀ l, (f l).Perm l ∧ (f l).Pairwise (fun a b => comp b a = false)

/-- Insertion of one element into a range already sorted by `comp`; the element
moves in front of the first element it is `comp`-less than. -/
def insertSorted {α : Type} (comp : α → α → Bool) (a : α) : List α → List α
  | [] => [a]
  | b :: l => if comp a b then a :: b :: l else b :: insertSorted comp a l

/-- A reference `std::sort`: insertion sort, which is what the standard libraries run on
ranges of a handful of elements. -/
def stdSort (α : Type) (comp : α → α → Bool) : List α → List α
  | [] => []
  | a :: l => insertSorted comp a (stdSort α comp l)

/-! ## Corner detector -/

/-- The functions the detector calls and does not define. -/
structure DetectorLib (F : Type) where
  /-- The function `std::sort(first, last, comp)`. -/
  sort : (α : Type) → (α → α → Bool) → List α → List α
  /-- The function `cv::contourArea`. -/
  contourArea : Contour → F
  /-- The function `cv::arcLength(contour, true)`. -/
  arcLength : Contour → F
  /-- The function `cv::approxPolyDP(contour, approx, epsilon, true)`, returning `approx`. -/
  approxPolyDP : Contour → F → List Point
  /-- The conversion `static_cast<float>` of an `int`. -/
  toFloat : Int → F

section Detector

variable {F : Type} [LinearOrder F] [Add F] [Mul F] [OfScientific F]

/-- The comparator of line 43: `cv::contourArea(a) > cv::contourArea(b)`. -/
def areaGreater (lib : DetectorLib F) (a b : Contour) : Bool :=
  decide (lib.contourArea a > lib.contourArea b)

/-- The comparator of line 69: `a.x + a.y < b.x + b.y`. -/
def sumLess (a b : Point2f F) : Bool :=
  decide (a.x + a.y < b.x + b.y)

/-- Lines 65-68: the vertices of `approx` converted to `cv::Point2f`. -/
def toPoints2f (lib : DetectorLib F) (approx : List Point) : List (Point2f F) :=
  approx.map (fun p => Point2f.mk (lib.toFloat p.x) (lib.toFloat p.y))

/-- Lines 64-88: the body of `if (approx.size() == 4)`, returning the points added to
`cornersList` by the loop of line 84, in order `rect[0], rect[1], rect[2], rect[3]`
(each is handed over as two `double`s, which hold every `float` unchanged).  An element
access outside the vector gives `none`. -/
def orderCorners (lib : DetectorLib F) (approx : List Point) : Option (List (Point2f F)) := do
  let points := toPoints2f lib approx
  let points := lib.sort (Point2f F) sumLess points
  let rect0 ← points[0]?
  let rect3 ← points.getLast?
  let points := points.eraseIdx 0
  let points := points.dropLast
  let p0 ← points[0]?
  let p1 ← points[1]?
  let (rect1, rect2) := if p0.x > p1.x then (p0, p1) else (p1, p0)
  pure [rect0, rect1, rect2, rect3]

/-- Line 58-59: the polygon approximation of one contour with tolerance 2% of its
perimeter. -/
def approxOf (lib : DetectorLib F) (contour : Contour) : List Point :=
  let perimeter := lib.arcLength contour
  lib.approxPolyDP contour (0.02 * perimeter)

/-- Lines 56-94: the scanning loop over the sorted contours.  The first contour whose
approximation has 4 vertices decides the result; without one the empty list is
returned. -/
def scanContours (lib : DetectorLib F) : List Contour → Option (List (Point2f F))
  | [] => some []
  | contour :: rest =>
    let approx := approxOf lib contour
    if approx.length = 4 then
      orderCorners lib approx
    else
      scanContours lib rest

/-- The function `detectDocumentCornersNative` from the contour list on (lines 42-94). -/
def detectDocumentCornersNative (lib : DetectorLib F) (contours : List Contour) :
    Option (List (Point2f F)) :=
  let contours := lib.sort Contour (areaGreater lib) contours
  scanContours lib contours

/-- The contour at which the scanning loop returns: the first one, in scanning order,
whose approximation has 4 vertices. -/
def acceptedIn (lib : DetectorLib F) : List Contour → Option Contour
  | [] => none
  | contour :: rest =>
    if (approxOf lib contour).length = 4 then some contour else acceptedIn lib rest

/-- The contour whose vertices `detectDocumentCornersNative` returns, if any. -/
def acceptedContour (lib : DetectorLib F) (contours : List Contour) : Option Contour :=
  acceptedIn lib (lib.sort Contour (areaGreater lib) contours)

end Detector

/-! ## Floating point

The values of `float` and `double` and the IEEE 754 operations the rectifier runs on
them, rounding to nearest with ties to even.  The two zeros are one value. -/

/-- A value of type `float` or `double`: a finite number, an infinity or a NaN. -/
inductive FP where
  | finite (q : ℚ)
  | posInf
  | negInf
  | nan
  deriving DecidableEq, Repr

/-- The integer nearest to `q`, the even one of the two when `q` lies halfway. -/
def roundHalfEven (q : ℚ) : Int :=
  let f := Int.floor q
  if q - f < 1 / 2 then f
  else if 1 / 2 < q - f then f + 1
  else if f % 2 = 0 then f else f + 1

/-- The exponent of the unit in the last place of `q` in a binary format with `prec`
significant bits and least normal exponent `emin`. -/
def ulpExp (prec : Nat) (emin : Int) (q : ℚ) : Int :=
  max (Int.log 2 |q|) emin - (prec - 1)

/-- The rational `q` rounded to `prec` significant bits (fewer below `2 ^ emin`). -/
def roundNearest (prec : Nat) (emin : Int) (q : ℚ) : ℚ :=
  roundHalfEven (q / 2 ^ ulpExp prec emin q) * 2 ^ ulpExp prec emin q

/-- The value of the format nearest to `q`: an infinity once the rounded magnitude
reaches `2 ^ (emax + 1)`. -/
def toFormat (prec : Nat) (emin emax : Int) (q : ℚ) : FP :=
  let r := roundNearest prec emin q
  if |r| < 2 ^ (emax + 1) then FP.finite r
  else if 0 < r then FP.posInf else FP.negInf

/-- Rounding to `float` (binary32). -/
def roundFloat (q : ℚ) : FP :=
  toFormat 24 (-126) 127 q

/-- Rounding to `double` (binary64). -/
def roundDouble (q : ℚ) : FP :=
  toFormat 53 (-1022) 1023 q

/-- The square root of `q ≥ 0` rounded to the format: the floor of the root in units in
the last place, or the next integer when the root lies above the halfway point. -/
def sqrtNearest (prec : Nat) (emin : Int) (q : ℚ) : ℚ :=
  let e := max (Int.log 2 q / 2) emin - (prec - 1)
  let t := q / (2 ^ e * 2 ^ e)
  let f : ℚ := Nat.sqrt (Nat.floor t)
  if t < (f + 1 / 2) ^ 2 then f * 2 ^ e
  else if (f + 1 / 2) ^ 2 < t then (f + 1) * 2 ^ e
  else if (Nat.sqrt (Nat.floor t)) % 2 = 0 then f * 2 ^ e else (f + 1) * 2 ^ e

/-- The conversion `static_cast<float>` of a `double`, and the assignment of a `double`
to a `float`. -/
def FP.toFloat : FP → FP
  | .finite q => roundFloat q
  | x => x

/-- The subtraction of two `float`s. -/
def FP.fsub : FP → FP → FP
  | .finite a, .finite b => roundFloat (a - b)
  | .nan, _ => .nan
  | _, .nan => .nan
  | .posInf, .posInf => .nan
  | .negInf, .negInf => .nan
  | .posInf, _ => .posInf
  | .negInf, _ => .negInf
  | .finite _, .posInf => .negInf
  | .finite _, .negInf => .posInf

/-- The product of two `double`s. -/
def FP.dmul : FP → FP → FP
  | .finite a, .finite b => roundDouble (a * b)
  | .nan, _ => .nan
  | _, .nan => .nan
  | .finite a, .posInf => if a = 0 then .nan else if 0 < a then .posInf else .negInf
  | .finite a, .negInf => if a = 0 then .nan else if 0 < a then .negInf else .posInf
  | .posInf, .finite b => if b = 0 then .nan else if 0 < b then .posInf else .negInf
  | .negInf, .finite b => if b = 0 then .nan else if 0 < b then .negInf else .posInf
  | .posInf, .posInf => .posInf
  | .negInf, .negInf => .posInf
  | .posInf, .negInf => .negInf
  | .negInf, .posInf => .negInf

/-- The sum of two `double`s. -/
def FP.dadd : FP → FP → FP
  | .finite a, .finite b => roundDouble (a + b)
  | .nan, _ => .nan
  | _, .nan => .nan
  | .posInf, .negInf => .nan
  | .negInf, .posInf => .nan
  | .posInf, _ => .posInf
  | .negInf, _ => .negInf
  | .finite _, .posInf => .posInf
  | .finite _, .negInf => .negInf

/-- The function `std::sqrt` on a `double`. -/
def FP.dsqrt : FP → FP
  | .finite q => if q < 0 then .nan else .finite (sqrtNearest 53 (-1022) q)
  | .posInf => .posInf
  | .negInf => .nan
  | .nan => .nan

/-- The comparison `a < b` of two `float`s; false when either is a NaN. -/
def FP.lt : FP → FP → Bool
  | .finite a, .finite b => decide (a < b)
  | .finite _, .posInf => true
  | .negInf, .finite _ => true
  | .negInf, .posInf => true
  | _, _ => false

/-- The function `std::max(a, b)`: `(a < b) ? b : a`. -/
def FP.stdMax (a b : FP) : FP :=
  if a.lt b then b else a

/-! ## Rectifier -/

/-- An element of the Java list `corners`: `org.opencv.core.Point`, two `double`
fields. -/
structure JavaPoint where
  x : FP
  y : FP
  deriving DecidableEq, Repr

/-- The functions the rectifier calls and does not define, and what the platform does
where the language leaves the result open. -/
structure RectifierLib (Img Mx : Type) where
  /-- The function `cv::getPerspectiveTransform(src, dst)`. -/
  getPerspectiveTransform : List (Point2f FP) → List (Point2f FP) → Mx
  /-- The function `cv::warpPerspective(src, dst, M, dsize)`, returning `dst`. -/
  warpPerspective : Img → Mx → Int × Int → Img
  /-- What `static_cast<int>` yields on a `float` whose truncation is not an `int`
  (an infinity, a NaN, a magnitude of `2 ^ 31` or more): undefined in the language. -/
  castUndefined : FP → Int

/-- What a call of `applyPerspectiveTransformNative` has done by the time it returns. -/
structure RectifyState (Img Mx : Type) where
  /-- The image behind `matAddrDest`. -/
  dest : Img
  /-- Whether the size guard logged the error and returned (line 110-111). -/
  invalidInput : Bool
  /-- The number of executions of `corners.get(i)` (line 116). -/
  pointsRead : Nat
  /-- The vector `srcPoints`. -/
  srcPoints : List (Point2f FP)
  /-- The vector `dstPoints`. -/
  dstPoints : List (Point2f FP)
  /-- The matrix `M`, once `cv::getPerspectiveTransform` has run. -/
  homography : Option Mx
  /-- The `cv::Size` handed to `cv::warpPerspective`, once it has run. -/
  canvas : Option (Int × Int)

/-- The operator `operator-` of `cv::Point2f`: the `float` difference of each
coordinate. -/
def Point2f.sub (a b : Point2f FP) : Point2f FP :=
  Point2f.mk (a.x.fsub b.x) (a.y.fsub b.y)

/-- The function `cv::norm` of a `cv::Point2f`, a `double`:
`std::sqrt((double)pt.x*pt.x + (double)pt.y*pt.y)`.  Every `float` is a `double`. -/
def norm (pt : Point2f FP) : FP :=
  ((pt.x.dmul pt.x).dadd (pt.y.dmul pt.y)).dsqrt

/-- The conversion `static_cast<int>` of a `float`: the fractional part is dropped when
the result is an `int`. -/
def truncToInt (castUndefined : FP → Int) : FP → Int
  | .finite q =>
    if -(2 ^ 31) - 1 < q ∧ q < 2 ^ 31 then
      if 0 ≤ q then Int.floor q else Int.ceil q
    else castUndefined (.finite q)
  | x => castUndefined x

/-- Lines 115-124: the loop that reads the corners into `srcPoints`, one `get` per
element, each coordinate converted to `float`. -/
def readCorners {Img Mx : Type} : List JavaPoint → RectifyState Img Mx → RectifyState Img Mx
  | [], st => st
  | pointObject :: rest, st =>
    let x := pointObject.x
    let y := pointObject.y
    readCorners rest
      { st with pointsRead := st.pointsRead + 1,
                srcPoints := st.srcPoints ++ [Point2f.mk x.toFloat y.toFloat] }

/-- Lines 126-133: `maxWidth` and `maxHeight` from `srcPoints`, each norm stored in a
`float`.  An element access outside the vector gives `none`. -/
def targetSize (srcPoints : List (Point2f FP)) : Option (FP × FP) := do
  let s0 ← srcPoints[0]?
  let s1 ← srcPoints[1]?
  let s2 ← srcPoints[2]?
  let s3 ← srcPoints[3]?
  let widthA := (norm (s1.sub s0)).toFloat
  let widthB := (norm (s2.sub s3)).toFloat
  let maxWidth := widthA.stdMax widthB
  let heightA := (norm (s3.sub s0)).toFloat
  let heightB := (norm (s2.sub s1)).toFloat
  let maxHeight := heightA.stdMax heightB
  pure (maxWidth, maxHeight)

/-- Lines 135-139: the destination rectangle. -/
def dstPointsOf (maxWidth maxHeight : FP) : List (Point2f FP) :=
  [Point2f.mk (.finite 0) (.finite 0), Point2f.mk maxWidth (.finite 0),
   Point2f.mk maxWidth maxHeight, Point2f.mk (.finite 0) maxHeight]

/-- The function `applyPerspectiveTransformNative` (lines 101-144). -/
def applyPerspectiveTransformNative {Img Mx : Type} (lib : RectifierLib Img Mx)
    (src dest : Img) (corners : List JavaPoint) : Option (RectifyState Img Mx) :=
  let st : RectifyState Img Mx :=
    { dest := dest, invalidInput := false, pointsRead := 0, srcPoints := [], dstPoints := [],
      homography := none, canvas := none }
  let size := corners.length
  if size ≠ 4 then
    some { st with invalidInput := true }
  else do
    let st := readCorners corners st
    let (maxWidth, maxHeight) ← targetSize st.srcPoints
    let dstPoints := dstPointsOf maxWidth maxHeight
    let M := lib.getPerspectiveTransform st.srcPoints dstPoints
    let dsize := (truncToInt lib.castUndefined maxWidth, truncToInt lib.castUndefined maxHeight)
    some { st with dstPoints := dstPoints, homography := some M, canvas := some dsize,
                   dest := lib.warpPerspective src M dsize }

/-- Line 85: the points of the detector as the Java list holds them, two `double`s
each. -/
def javaCorners (rect : List (Point2f ℚ)) : List JavaPoint :=
  rect.map (fun p => JavaPoint.mk (.finite p.x) (.finite p.y))

/-! ## Reference instances of the library parameters -/

/-- The area enclosed by a closed polygon with integer vertices (shoelace formula). -/
def shoelaceArea (c : Contour) : ℚ :=
  |(((c.zip (c.rotate 1)).map (fun pq => pq.1.x * pq.2.y - pq.2.x * pq.1.y)).sum : Int)| / 2

/-- A detector library over the rationals: insertion sort, the shoelace area, the
number of vertices for the perimeter, a polygon approximation that keeps every vertex
of the contour, and an exact conversion from `int` (as `float` is on integers of
magnitude up to 2^24). -/
def refDetectorLib : DetectorLib ℚ where
  sort := stdSort
  contourArea := shoelaceArea
  arcLength := fun c => (c.length : ℚ)
  approxPolyDP := fun c _ => c
  toFloat := fun n => (n : ℚ)

/-- A rectifier library in which an image is its size and a homography is the pair of
quadrilaterals it was computed from; a cast outside the range of `int` gives the least
`int`. -/
def refRectifierLib : RectifierLib (Int × Int) (List (Point2f FP) × List (Point2f FP)) where
  getPerspectiveTransform := fun s d => (s, d)
  warpPerspective := fun _ _ dsize => dsize
  castUndefined := fun _ => -2147483648

/-! ## The spec's vocabulary -/

/-- The number `d` is the Euclidean length of the vector `(dx, dy)`: it is not negative
and its square is the sum of the squares of `dx` and `dy`. -/
def IsEuclideanLength (dx dy d : ℚ) : Prop :=
  0 ≤ d ∧ d * d = dx * dx + dy * dy

/-- The integer `n` is `q` truncated toward zero: `n` has the sign of `q` and its
magnitude is the largest integer not above the magnitude of `q`. -/
def IsTruncTowardZero (q : ℚ) (n : Int) : Prop :=
  |(n : ℚ)| ≤ |q| ∧ |q| < |(n : ℚ)| + 1 ∧ 0 ≤ (n : ℚ) * q

/-- The rational `q` is a value of type `float`. -/
def IsFloat (q : ℚ) : Prop :=
  roundFloat q = FP.finite q

/-- The corners of a Java list as the `cv::Point2f` values the rectifier stores. -/
def cornersAsPoints (corners : List JavaPoint) : List (Point2f FP) :=
  corners.map (fun p => Point2f.mk p.x.toFloat p.y.toFloat)

/-- The Euclidean distance of two `float` points as `float` arithmetic gives it: the
coordinate differences from `a` to `b` in `float`, the square root of the sum of their
squares in `double`, the result stored in a `float`. -/
def floatDist (a b : Point2f FP) : FP :=
  (((b.x.fsub a.x).dmul (b.x.fsub a.x)).dadd ((b.y.fsub a.y).dmul (b.y.fsub a.y))).dsqrt.toFloat

/-! ## The reference sort meets the contract of `std::sort` -/

theorem insertSorted_perm {α : Type} (comp : α → α → Bool) (a : α) (l : List α) :
    (insertSorted comp a l).Perm (a :: l) := by
  induction l with
  | nil => exact List.Perm.refl _
  | cons b l ih =>
    unfold insertSorted
    split
    · exact List.Perm.refl _
    · exact (List.Perm.cons b ih).trans (List.Perm.swap a b l)

theorem stdSort_perm {α : Type} (comp : α → α → Bool) (l : List α) :
    (stdSort α comp l).Perm l := by
  induction l with
  | nil => exact List.Perm.refl _
  | cons a l ih =>
    unfold stdSort
    exact (insertSorted_perm comp a _).trans (List.Perm.cons a ih)

theorem insertSorted_pairwise {α : Type} (comp : α → α → Bool)
    (hasym : ∀ a b, comp a b = true → comp b a = false)
    (htrans : ∀ a b c, comp b a = false → comp c b = false → comp c a = false)
    (a : α) (l : List α) (hl : l.Pairwise (fun x y => comp y x = false)) :
    (insertSorted comp a l).Pairwise (fun x y => comp y x = false) := by
  induction l with
  | nil => simp [insertSorted]
  | cons b l ih =>
    rw [List.pairwise_cons] at hl
    unfold insertSorted
    split
    · rename_i hab
      rw [List.pairwise_cons]
      refine ⟨?_, List.pairwise_cons.mpr hl⟩
      intro x hx
      rcases List.mem_cons.mp hx with rfl | hx
      · exact hasym _ _ hab
      · exact htrans a b x (hasym _ _ hab) (hl.1 x hx)
    · rename_i hab
      rw [List.pairwise_cons]
      refine ⟨?_, ih hl.2⟩
      intro x hx
      rcases List.mem_cons.mp ((insertSorted_perm comp a l).subset hx) with rfl | hx
      · simpa using hab
      · exact hl.1 x hx

theorem stdSort_sortsBy {α : Type} (comp : α → α → Bool)
    (hasym : ∀ a b, comp a b = true → comp b a = false)
    (htrans : ∀ a b c, comp b a = false → comp c b = false → comp c a = false) :
    SortsBy comp (stdSort α comp) := by
  intro l
  refine ⟨stdSort_perm comp l, ?_⟩
  induction l with
  | nil => simp [stdSort]
  | cons a l ih =>
    unfold stdSort
    exact insertSorted_pairwise comp hasym htrans a _ ih

theorem stdSort_sortsBy_sumLess {F : Type} [LinearOrder F] [Add F] :
    SortsBy (sumLess : Point2f F → Point2f F → Bool) (stdSort (Point2f F) sumLess) := by
  apply stdSort_sortsBy
  · intro a b h
    simp only [sumLess, decide_eq_true_eq, decide_eq_false_iff_not, not_lt] at *
    exact le_of_lt h
  · intro a b c h1 h2
    simp only [sumLess, decide_eq_false_iff_not, not_lt] at *
    exact le_trans h1 h2

theorem stdSort_sortsBy_areaGreater {F : Type} [LinearOrder F] (lib : DetectorLib F) :
    SortsBy (areaGreater lib) (stdSort Contour (areaGreater lib)) := by
  apply stdSort_sortsBy
  · intro a b h
    simp only [areaGreater, gt_iff_lt, decide_eq_true_eq, decide_eq_false_iff_not, not_lt] at *
    exact le_of_lt h
  · intro a b c h1 h2
    simp only [areaGreater, gt_iff_lt, decide_eq_false_iff_not, not_lt] at *
    exact le_trans h2 h1

/-! ## The corner ordering -/

/-- What lines 72-82 do on a sorted vector of four points. -/
theorem orderCorners_of_sorted {F : Type} [LinearOrder F] [Add F] (lib : DetectorLib F)
    (approx : List Point) (a b c d : Point2f F)
    (hs : lib.sort (Point2f F) sumLess (toPoints2f lib approx) = [a, b, c, d]) :
    orderCorners lib approx = some (if b.x > c.x then [a, b, c, d] else [a, c, b, d]) := by
  unfold orderCorners
  simp only [hs]
  by_cases h : b.x > c.x <;> simp [h]

/-- The sorted vector of four points with a strict minimum and a strict maximum of
`x + y`: the minimum is first, the maximum last, the other two in between. -/
theorem sorted_four {F : Type} [LinearOrder F] [Add F] (lib : DetectorLib F)
    (hsort : SortsBy sumLess (lib.sort (Point2f F) sumLess))
    (pts : List (Point2f F)) (tl m1 m2 br : Point2f F)
    (hperm : pts.Perm [tl, m1, m2, br])
    (h1 : tl.x + tl.y < m1.x + m1.y) (h2 : tl.x + tl.y < m2.x + m2.y)
    (h3 : m1.x + m1.y < br.x + br.y) (h4 : m2.x + m2.y < br.x + br.y) :
    lib.sort (Point2f F) sumLess pts = [tl, m1, m2, br] ∨
    lib.sort (Point2f F) sumLess pts = [tl, m2, m1, br] := by
  obtain ⟨hp, hpw⟩ := hsort pts
  have hp4 : (lib.sort (Point2f F) sumLess pts).Perm [tl, m1, m2, br] := hp.trans hperm
  have hlen := hp4.length_eq
  generalize lib.sort (Point2f F) sumLess pts = s at hp hpw hp4 hlen
  match s, hlen with
  | [a, b, c, d], _ =>
    simp only [List.pairwise_cons, List.mem_cons, List.mem_singleton, sumLess,
      decide_eq_false_iff_not, not_lt, forall_eq_or_imp, forall_eq, List.not_mem_nil,
      false_implies, implies_true, List.Pairwise.nil, and_true] at hpw
    obtain ⟨⟨hab, hac, had⟩, ⟨hbc, hbd⟩, hcd⟩ := hpw
    have h5 : tl.x + tl.y < br.x + br.y := lt_trans h1 h3
    -- every element has a key between those of tl and br
    have hge : ∀ p ∈ [a, b, c, d], tl.x + tl.y ≤ p.x + p.y := by
      intro p hpm
      have := hp4.subset hpm
      simp only [List.mem_cons, List.mem_singleton, List.not_mem_nil, or_false] at this
      rcases this with rfl | rfl | rfl | rfl
      · exact le_refl _
      · exact le_of_lt h1
      · exact le_of_lt h2
      · exact le_of_lt h5
    have hle : ∀ p ∈ [a, b, c, d], p.x + p.y ≤ br.x + br.y := by
      intro p hpm
      have := hp4.subset hpm
      simp only [List.mem_cons, List.mem_singleton, List.not_mem_nil, or_false] at this
      rcases this with rfl | rfl | rfl | rfl
      · exact le_of_lt h5
      · exact le_of_lt h3
      · exact le_of_lt h4
      · exact le_refl _
    have htl : tl ∈ [a, b, c, d] := hp4.symm.subset (by simp)
    have hbr : br ∈ [a, b, c, d] := hp4.symm.subset (by simp)
    have hka : a.x + a.y ≤ tl.x + tl.y := by
      simp only [List.mem_cons, List.mem_singleton, List.not_mem_nil, or_false] at htl
      rcases htl with rfl | rfl | rfl | rfl
      · exact le_refl _
      · exact hab
      · exact hac
      · exact had
    have hkd : br.x + br.y ≤ d.x + d.y := by
      simp only [List.mem_cons, List.mem_singleton, List.not_mem_nil, or_false] at hbr
      rcases hbr with rfl | rfl | rfl | rfl
      · exact had
      · exact hbd
      · exact hcd
      · exact le_refl _
    have ha : a = tl := by
      have := hp4.subset (List.mem_cons_self a _)
      simp only [List.mem_cons, List.mem_singleton, List.not_mem_nil, or_false] at this
      rcases this with h | h | h | h
      · exact h
      · subst h; exact absurd hka (not_le_of_lt h1)
      · subst h; exact absurd hka (not_le_of_lt h2)
      · subst h; exact absurd hka (not_le_of_lt h5)
    have hd : d = br := by
      have := hp4.subset (show d ∈ [a, b, c, d] by simp)
      simp only [List.mem_cons, List.mem_singleton, List.not_mem_nil, or_false] at this
      rcases this with h | h | h | h
      · subst h; exact absurd hkd (not_le_of_lt h5)
      · subst h; exact absurd hkd (not_le_of_lt h3)
      · subst h; exact absurd hkd (not_le_of_lt h4)
      · exact h
    subst ha hd
    have hmid : [b, c].Perm [m1, m2] := by
      have h := hp4.cons_inv
      have h2 : ([b, c] ++ [d]).Perm ([m1, m2] ++ [d]) := h
      exact (List.perm_append_right_iff [d]).mp h2
    have hb := hmid.subset (List.mem_cons_self b _)
    simp only [List.mem_cons, List.mem_singleton, List.not_mem_nil, or_false] at hb
    rcases hb with hb | hb
    · rw [hb] at hmid
      have hc := List.perm_singleton.mp hmid.cons_inv
      simp only [List.cons.injEq, and_true] at hc
      left; rw [hb, hc]
    · rw [hb] at hmid
      have h := hmid.trans (List.Perm.swap m2 m1 [])
      have hc := List.perm_singleton.mp h.cons_inv
      simp only [List.cons.injEq, and_true] at hc
      right; rw [hb, hc]

/-- The list the corner ordering returns on four points with a strict minimum and a
strict maximum of `x + y`: minimum, larger-x remaining point, other remaining point,
maximum. -/
theorem orderCorners_eq {F : Type} [LinearOrder F] [Add F] (lib : DetectorLib F)
    (hsort : SortsBy sumLess (lib.sort (Point2f F) sumLess))
    (approx : List Point) (tl hi lo br : Point2f F)
    (hperm : (toPoints2f lib approx).Perm [tl, hi, lo, br])
    (h1 : tl.x + tl.y < hi.x + hi.y) (h2 : tl.x + tl.y < lo.x + lo.y)
    (h3 : hi.x + hi.y < br.x + br.y) (h4 : lo.x + lo.y < br.x + br.y)
    (hx : lo.x < hi.x) :
    orderCorners lib approx = some [tl, hi, lo, br] := by
  rcases sorted_four lib hsort _ tl hi lo br hperm h1 h2 h3 h4 with hs | hs
  · rw [orderCorners_of_sorted lib approx _ _ _ _ hs, if_pos hx]
  · rw [orderCorners_of_sorted lib approx _ _ _ _ hs, if_neg (not_lt_of_gt hx)]

/-- On a polygon of four vertices the corner ordering returns, and what it returns is a
rearrangement of the four converted vertices. -/
theorem orderCorners_total {F : Type} [LinearOrder F] [Add F] (lib : DetectorLib F)
    (hsort : SortsBy sumLess (lib.sort (Point2f F) sumLess))
    (approx : List Point) (h4 : approx.length = 4) :
    ∃ r, orderCorners lib approx = some r ∧ r.length = 4 ∧ r.Perm (toPoints2f lib approx) := by
  have hp := (hsort (toPoints2f lib approx)).1
  have hlen : (lib.sort (Point2f F) sumLess (toPoints2f lib approx)).length = 4 := by
    rw [hp.length_eq, toPoints2f, List.length_map, h4]
  generalize hs : lib.sort (Point2f F) sumLess (toPoints2f lib approx) = s at hp hlen
  match s, hlen with
  | [a, b, c, d], _ =>
    rw [orderCorners_of_sorted lib approx a b c d hs]
    by_cases h : b.x > c.x
    · rw [if_pos h]
      exact ⟨_, rfl, rfl, hp⟩
    · rw [if_neg h]
      exact ⟨_, rfl, rfl, (List.Perm.cons a (List.Perm.swap b c [d])).trans hp⟩

/-! ## The scanning loop -/

theorem scanContours_eq {F : Type} [LinearOrder F] [Add F] [Mul F] [OfScientific F]
    (lib : DetectorLib F) (cs : List Contour) :
    scanContours lib cs =
      match acceptedIn lib cs with
      | some c => orderCorners lib (approxOf lib c)
      | none => some [] := by
  induction cs with
  | nil => rfl
  | cons c rest ih =>
    unfold scanContours acceptedIn
    by_cases h : (approxOf lib c).length = 4
    · simp only [h, if_true]
    · simp only [h, if_false]
      exact ih

theorem acceptedIn_eq_none {F : Type} [Mul F] [OfScientific F]
    (lib : DetectorLib F) (cs : List Contour) :
    acceptedIn lib cs = none ↔ ∀ c ∈ cs, (approxOf lib c).length ≠ 4 := by
  induction cs with
  | nil => simp [acceptedIn]
  | cons c rest ih =>
    unfold acceptedIn
    by_cases h : (approxOf lib c).length = 4
    · simp [h]
    · simp [h, ih]

theorem acceptedIn_eq_some {F : Type} [Mul F] [OfScientific F]
    (lib : DetectorLib F) (cs : List Contour) (sel : Contour)
    (h : acceptedIn lib cs = some sel) :
    ∃ pre post, cs = pre ++ sel :: post ∧ (∀ c ∈ pre, (approxOf lib c).length ≠ 4) ∧
      (approxOf lib sel).length = 4 := by
  induction cs with
  | nil => simp [acceptedIn] at h
  | cons c rest ih =>
    unfold acceptedIn at h
    by_cases hc : (approxOf lib c).length = 4
    · simp only [hc, if_true, Option.some.injEq] at h
      subst h
      exact ⟨[], rest, rfl, by simp, hc⟩
    · simp only [hc, if_false] at h
      obtain ⟨pre, post, hcs, hpre, hsel⟩ := ih h
      refine ⟨c :: pre, post, by rw [hcs]; rfl, ?_, hsel⟩
      intro x hx
      rcases List.mem_cons.mp hx with rfl | hx
      · exact hc
      · exact hpre x hx

/-- The contour the detector accepts, when some contour has a 4-vertex approximation:
it is in the list, has a 4-vertex approximation, and no contour of the list with a
4-vertex approximation has a larger area. -/
theorem acceptedContour_spec {F : Type} [LinearOrder F] [Mul F] [OfScientific F]
    (lib : DetectorLib F)
    (hsort : SortsBy (areaGreater lib) (lib.sort Contour (areaGreater lib)))
    (contours : List Contour)
    (hex : ∃ c ∈ contours, (approxOf lib c).length = 4) :
    ∃ sel, acceptedContour lib contours = some sel ∧ sel ∈ contours ∧
      (approxOf lib sel).length = 4 ∧
      ∀ c ∈ contours, (approxOf lib c).length = 4 → lib.contourArea c ≤ lib.contourArea sel := by
  obtain ⟨hp, hpw⟩ := hsort contours
  unfold acceptedContour
  generalize lib.sort Contour (areaGreater lib) contours = s at hp hpw
  cases hacc : acceptedIn lib s with
  | none =>
    obtain ⟨c, hc, hc4⟩ := hex
    exact absurd hc4 ((acceptedIn_eq_none lib s).mp hacc c (hp.symm.subset hc))
  | some sel =>
    obtain ⟨pre, post, hs, hpre, hsel⟩ := acceptedIn_eq_some lib s sel hacc
    refine ⟨sel, rfl, hp.subset (by rw [hs]; simp), hsel, ?_⟩
    intro c hc hc4
    have hcs : c ∈ s := hp.symm.subset hc
    rw [hs] at hcs hpw
    rw [List.pairwise_append] at hpw
    rcases List.mem_append.mp hcs with hin | hin
    · exact absurd hc4 (hpre c hin)
    · rcases List.mem_cons.mp hin with rfl | hin
      · exact le_refl _
      · have := (List.pairwise_cons.mp hpw.2.1).1 c hin
        simpa [areaGreater] using this

/-! ## Claims on the detector -/

/-- Claim C1, evaluated on its own example.  On the vertices (20,0), (217,35), (200,133),
(3,98) the corner ordering puts the maximum-(x+y) point (200,133) in `rect[3]` and the
remaining smaller-x point (3,98) in `rect[2]`: the list returned is
[(20,0), (217,35), (3,98), (200,133)], which is not the list
[(20,0), (217,35), (200,133), (3,98)] the claim states. -/
theorem orderCorners_rotated_rectangle :
    orderCorners refDetectorLib [⟨20, 0⟩, ⟨217, 35⟩, ⟨200, 133⟩, ⟨3, 98⟩]
        = some [⟨20, 0⟩, ⟨217, 35⟩, ⟨3, 98⟩, ⟨200, 133⟩] ∧
      orderCorners refDetectorLib [⟨20, 0⟩, ⟨217, 35⟩, ⟨200, 133⟩, ⟨3, 98⟩]
        ≠ some [⟨20, 0⟩, ⟨217, 35⟩, ⟨200, 133⟩, ⟨3, 98⟩] := by
  have h : orderCorners refDetectorLib [⟨20, 0⟩, ⟨217, 35⟩, ⟨200, 133⟩, ⟨3, 98⟩]
      = some [⟨20, 0⟩, ⟨217, 35⟩, ⟨3, 98⟩, ⟨200, 133⟩] := by
    apply orderCorners_eq refDetectorLib stdSort_sortsBy_sumLess
    · simp only [toPoints2f, refDetectorLib, List.map]
      norm_num
      exact List.Perm.swap _ _ _
    all_goals norm_num
  refine ⟨h, ?_⟩
  rw [h]
  simp

/-- Claim C4, evaluated on the rectangle with corners (0,0), (100,0), (100,50), (0,50).
The detector returns [(0,0), (100,0), (0,50), (100,50)], that is [TL, TR, BL, BR], and
not the list [(0,0), (100,0), (100,50), (0,50)] the claim states. -/
theorem detect_axis_aligned_rectangle :
    detectDocumentCornersNative refDetectorLib [[⟨0, 0⟩, ⟨100, 0⟩, ⟨100, 50⟩, ⟨0, 50⟩]]
        = some [⟨0, 0⟩, ⟨100, 0⟩, ⟨0, 50⟩, ⟨100, 50⟩] ∧
      detectDocumentCornersNative refDetectorLib [[⟨0, 0⟩, ⟨100, 0⟩, ⟨100, 50⟩, ⟨0, 50⟩]]
        ≠ some [⟨0, 0⟩, ⟨100, 0⟩, ⟨100, 50⟩, ⟨0, 50⟩] := by
  have h : detectDocumentCornersNative refDetectorLib [[⟨0, 0⟩, ⟨100, 0⟩, ⟨100, 50⟩, ⟨0, 50⟩]]
      = some [⟨0, 0⟩, ⟨100, 0⟩, ⟨0, 50⟩, ⟨100, 50⟩] := by
    have hscan : detectDocumentCornersNative refDetectorLib
          [[⟨0, 0⟩, ⟨100, 0⟩, ⟨100, 50⟩, ⟨0, 50⟩]]
        = orderCorners refDetectorLib [⟨0, 0⟩, ⟨100, 0⟩, ⟨100, 50⟩, ⟨0, 50⟩] := rfl
    rw [hscan]
    apply orderCorners_eq refDetectorLib stdSort_sortsBy_sumLess
    · simp only [toPoints2f, refDetectorLib, List.map]
      norm_num
      exact List.Perm.swap _ _ _
    all_goals norm_num
  refine ⟨h, ?_⟩
  rw [h]
  simp

/-- Claim C5.  For every contour list, area function and polygon approximation, and
every `std::sort`: when some contour has a 4-vertex approximation, the detector returns
the ordered vertices of one contour `sel` of the list with a 4-vertex approximation, and
every contour of the list with a 4-vertex approximation has an area at most that of
`sel`.  So of two such contours of different area the smaller is never the one
returned, wherever they stand in the list, and when they are the only two the larger is
the one returned. -/
theorem detect_selects_largest_area {F : Type} [LinearOrder F] [Add F] [Mul F] [OfScientific F]
    (lib : DetectorLib F)
    (hsortC : SortsBy (areaGreater lib) (lib.sort Contour (areaGreater lib)))
    (hsortP : SortsBy sumLess (lib.sort (Point2f F) sumLess))
    (contours : List Contour)
    (hex : ∃ c ∈ contours, (approxOf lib c).length = 4) :
    ∃ sel r, acceptedContour lib contours = some sel ∧ sel ∈ contours ∧
      (approxOf lib sel).length = 4 ∧
      detectDocumentCornersNative lib contours = some r ∧
      orderCorners lib (approxOf lib sel) = some r ∧
      r.Perm (toPoints2f lib (approxOf lib sel)) ∧
      (∀ c ∈ contours, (approxOf lib c).length = 4 →
        lib.contourArea c ≤ lib.contourArea sel) ∧
      (∀ c1 ∈ contours, ∀ c2 ∈ contours, (approxOf lib c1).length = 4 →
        (approxOf lib c2).length = 4 → lib.contourArea c1 < lib.contourArea c2 →
        sel ≠ c1 ∧
        ((∀ c ∈ contours, (approxOf lib c).length = 4 → c = c1 ∨ c = c2) → sel = c2)) := by
  obtain ⟨sel, hacc, hmem, hsel, hmax⟩ := acceptedContour_spec lib hsortC contours hex
  obtain ⟨r, hr, _, hperm⟩ := orderCorners_total lib hsortP (approxOf lib sel) hsel
  have hdet : detectDocumentCornersNative lib contours = some r := by
    unfold detectDocumentCornersNative
    unfold acceptedContour at hacc
    simp only [scanContours_eq, hacc]
    exact hr
  refine ⟨sel, r, hacc, hmem, hsel, hdet, hr, hperm, hmax, ?_⟩
  intro c1 _ c2 hc2 _ h2 hlt
  have hne : sel ≠ c1 := by
    intro h
    subst h
    exact absurd (hmax c2 hc2 h2) (not_le_of_lt hlt)
  refine ⟨hne, fun honly => ?_⟩
  rcases honly sel hmem hsel with h | h
  · exact absurd h hne
  · exact h

/-- Claim C6.  For every contour list the detector returns; it returns the empty list
exactly when no contour of the list has a 4-vertex approximation, it returns a list of
exactly 4 points when some contour has one, and so the length of the result is 0 or 4. -/
theorem detect_empty_or_four {F : Type} [LinearOrder F] [Add F] [Mul F] [OfScientific F]
    (lib : DetectorLib F)
    (hsortC : SortsBy (areaGreater lib) (lib.sort Contour (areaGreater lib)))
    (hsortP : SortsBy sumLess (lib.sort (Point2f F) sumLess))
    (contours : List Contour) :
    (detectDocumentCornersNative lib contours = some [] ↔
        ∀ c ∈ contours, (approxOf lib c).length ≠ 4) ∧
      ((∃ c ∈ contours, (approxOf lib c).length = 4) →
        ∃ r, detectDocumentCornersNative lib contours = some r ∧ r.length = 4) ∧
      ∃ r, detectDocumentCornersNative lib contours = some r ∧ (r.length = 0 ∨ r.length = 4) := by
  have hp := (hsortC contours).1
  have hnone : acceptedIn lib (lib.sort Contour (areaGreater lib) contours) = none ↔
      ∀ c ∈ contours, (approxOf lib c).length ≠ 4 := by
    rw [acceptedIn_eq_none]
    exact ⟨fun h c hc => h c (hp.symm.subset hc), fun h c hc => h c (hp.subset hc)⟩
  have hdet : detectDocumentCornersNative lib contours =
      match acceptedIn lib (lib.sort Contour (areaGreater lib) contours) with
      | some c => orderCorners lib (approxOf lib c)
      | none => some [] := by
    unfold detectDocumentCornersNative
    exact scanContours_eq lib _
  cases hacc : acceptedIn lib (lib.sort Contour (areaGreater lib) contours) with
  | none =>
    rw [hacc] at hdet hnone
    have hall := hnone.mp rfl
    refine ⟨⟨fun _ => hall, fun _ => hdet⟩, ?_, ⟨[], hdet, Or.inl rfl⟩⟩
    rintro ⟨c, hc, hc4⟩
    exact absurd hc4 (hall c hc)
  | some sel =>
    rw [hacc] at hdet hnone
    obtain ⟨_, _, _, _, hsel⟩ := acceptedIn_eq_some lib _ sel hacc
    obtain ⟨r, hr, hlen, _⟩ := orderCorners_total lib hsortP (approxOf lib sel) hsel
    have hdet2 : detectDocumentCornersNative lib contours = some r := hdet.trans hr
    refine ⟨⟨fun h => ?_, fun h => ?_⟩, fun _ => ⟨r, hdet2, hlen⟩, ⟨r, hdet2, Or.inr hlen⟩⟩
    · rw [hdet2] at h
      have hnil : r = [] := Option.some.inj h
      rw [hnil] at hlen
      simp at hlen
    · exact absurd (hnone.mpr h) (by simp)

theorem log_two_eq {q : ℚ} {e : ℤ} (h1 : (2 : ℚ) ^ e ≤ q) (h2 : q < (2 : ℚ) ^ (e + 1)) :
    Int.log 2 q = e := by
  have hq : 0 < q := lt_of_lt_of_le (zpow_pos (by norm_num) e) h1
  have ha : e ≤ Int.log 2 q := by
    rw [← Int.zpow_le_iff_le_log (by norm_num) hq]
    simpa using h1
  have hb : Int.log 2 q < e + 1 := by
    rw [← Int.lt_zpow_iff_log_lt (by norm_num) hq]
    simpa using h2
  omega

theorem zpow_log_le {q : ℚ} (hq : 0 < q) : (2 : ℚ) ^ Int.log 2 q ≤ q := by
  simpa using Int.zpow_log_le_self (b := 2) (by norm_num) hq

theorem lt_zpow_log_succ (q : ℚ) : q < (2 : ℚ) ^ (Int.log 2 q + 1) := by
  simpa using Int.lt_zpow_succ_log_self (b := 2) (by norm_num) q

theorem roundHalfEven_intCast (k : ℤ) : roundHalfEven (k : ℚ) = k := by
  unfold roundHalfEven
  simp

/-- A rational on the grid of its own binade is left unchanged by rounding. -/
theorem roundNearest_of_grid (prec : Nat) (emin : ℤ) (q : ℚ) (K : ℤ)
    (h : q = K * (2 : ℚ) ^ ulpExp prec emin q) : roundNearest prec emin q = q := by
  unfold roundNearest
  have hpos : (2 : ℚ) ^ ulpExp prec emin q ≠ 0 := zpow_ne_zero _ (by norm_num)
  have hdiv : q / (2 : ℚ) ^ ulpExp prec emin q = K := by
    rw [div_eq_iff hpos]
    exact h
  rw [hdiv, roundHalfEven_intCast]
  exact h.symm

theorem roundNearest_zero (prec : Nat) (emin : ℤ) : roundNearest prec emin 0 = 0 :=
  roundNearest_of_grid prec emin 0 0 (by simp)

/-- A dyadic rational `m * 2^k` with `|m| < 2^prec` and `k` not below the least
exponent of the format is left unchanged by rounding. -/
theorem roundNearest_dyadic (prec : Nat) (emin : ℤ) (m k : ℤ)
    (hm : |m| < 2 ^ prec) (hk : emin - (prec - 1) ≤ k) :
    roundNearest prec emin (m * (2 : ℚ) ^ k) = m * (2 : ℚ) ^ k := by
  by_cases hm0 : m = 0
  · subst hm0
    simpa using roundNearest_zero prec emin
  · have h2k : (0 : ℚ) < (2 : ℚ) ^ k := zpow_pos (by norm_num) k
    have hq : 0 < |(m : ℚ) * (2 : ℚ) ^ k| := by
      apply abs_pos.mpr
      exact mul_ne_zero (by exact_mod_cast hm0) (ne_of_gt h2k)
    have hmq : |(m : ℚ)| < (2 : ℚ) ^ (prec : ℤ) := by
      have : ((|m| : ℤ) : ℚ) < ((2 ^ prec : ℤ) : ℚ) := by exact_mod_cast hm
      simpa using this
    have hlt : |(m : ℚ) * (2 : ℚ) ^ k| < (2 : ℚ) ^ ((prec : ℤ) + k) := by
      rw [abs_mul, abs_of_pos h2k, zpow_add₀ (by norm_num)]
      exact mul_lt_mul_of_pos_right hmq h2k
    have hlog : Int.log 2 |(m : ℚ) * (2 : ℚ) ^ k| < (prec : ℤ) + k := by
      rw [← Int.lt_zpow_iff_log_lt (by norm_num) hq]
      simpa using hlt
    have hu : ulpExp prec emin (m * (2 : ℚ) ^ k) ≤ k := by
      unfold ulpExp
      rcases max_cases (Int.log 2 |(m : ℚ) * (2 : ℚ) ^ k|) emin with ⟨h, _⟩ | ⟨h, _⟩ <;>
        rw [h] <;> omega
    obtain ⟨j, hj⟩ := Int.eq_ofNat_of_zero_le (sub_nonneg.mpr hu)
    apply roundNearest_of_grid prec emin _ (m * 2 ^ j)
    have hk2 : k = (j : ℤ) + ulpExp prec emin (m * (2 : ℚ) ^ k) := by omega
    conv_lhs => rw [hk2]
    rw [zpow_add₀ (by norm_num), zpow_natCast]
    push_cast
    ring

/-- A value that rounding leaves unchanged is a dyadic rational `K * 2^u` with
`|K| < 2^prec` and `u` not below the least exponent of the format. -/
theorem roundNearest_repr (prec : Nat) (emin : ℤ) (x : ℚ)
    (h : roundNearest prec emin x = x) :
    ∃ K u : ℤ, x = K * (2 : ℚ) ^ u ∧ |K| < 2 ^ prec ∧ emin - (prec - 1) ≤ u := by
  refine ⟨roundHalfEven (x / 2 ^ ulpExp prec emin x), ulpExp prec emin x, ?_, ?_, ?_⟩
  · exact h.symm
  · set K := roundHalfEven (x / 2 ^ ulpExp prec emin x) with hK
    set u := ulpExp prec emin x with hu
    have hx : x = K * (2 : ℚ) ^ u := h.symm
    have h2u : (0 : ℚ) < (2 : ℚ) ^ u := zpow_pos (by norm_num) u
    have hlt : |x| < (2 : ℚ) ^ (Int.log 2 |x| + 1) := lt_zpow_log_succ |x|
    have hule : Int.log 2 |x| + 1 ≤ u + prec := by
      rw [hu]
      unfold ulpExp
      have := le_max_left (Int.log 2 |x|) emin
      omega
    have hlt2 : |x| < (2 : ℚ) ^ (u + prec) :=
      lt_of_lt_of_le hlt (zpow_le_zpow_right₀ (by norm_num) hule)
    rw [hx, abs_mul, abs_of_pos h2u, zpow_add₀ (by norm_num), mul_comm ((2 : ℚ) ^ u)] at hlt2
    have hKq : |(K : ℚ)| < (2 : ℚ) ^ (prec : ℤ) := lt_of_mul_lt_mul_right hlt2 (le_of_lt h2u)
    have : ((|K| : ℤ) : ℚ) < ((2 ^ prec : ℤ) : ℚ) := by
      push_cast
      simpa using hKq
    exact_mod_cast this
  · unfold ulpExp
    have := le_max_right (Int.log 2 |x|) emin
    omega


theorem toFormat_of_exact (prec : Nat) (emin emax : ℤ) (q : ℚ)
    (h : roundNearest prec emin q = q) (hb : |q| < (2 : ℚ) ^ (emax + 1)) :
    toFormat prec emin emax q = FP.finite q := by
  unfold toFormat
  simp only [h, hb, if_true]

theorem toFormat_eq_finite (prec : Nat) (emin emax : ℤ) (q : ℚ)
    (h : toFormat prec emin emax q = FP.finite q) :
    roundNearest prec emin q = q ∧ |q| < (2 : ℚ) ^ (emax + 1) := by
  unfold toFormat at h
  by_cases hb : |roundNearest prec emin q| < (2 : ℚ) ^ (emax + 1)
  · simp only [hb, if_true, FP.finite.injEq] at h
    rw [h] at hb
    exact ⟨h, hb⟩
  · simp only [hb, if_false] at h
    split at h <;> cases h

/-- Half of the base-2 logarithm of a square. -/
theorem log_sq_half {r : ℚ} (hr : 0 < r) : Int.log 2 (r * r) / 2 = Int.log 2 r := by
  have h1 := zpow_log_le hr
  have h2 := lt_zpow_log_succ r
  have hp : (0 : ℚ) < (2 : ℚ) ^ Int.log 2 r := zpow_pos (by norm_num) _
  have hlo : (2 : ℚ) ^ (Int.log 2 r + Int.log 2 r) ≤ r * r := by
    rw [zpow_add₀ (by norm_num)]
    exact mul_le_mul h1 h1 (le_of_lt hp) (le_of_lt hr)
  have hhi : r * r < (2 : ℚ) ^ ((Int.log 2 r + 1) + (Int.log 2 r + 1)) := by
    rw [zpow_add₀ (by norm_num)]
    exact mul_lt_mul'' h2 h2 (le_of_lt hr) (le_of_lt hr)
  have hrr : 0 < r * r := mul_pos hr hr
  have ha : Int.log 2 r + Int.log 2 r ≤ Int.log 2 (r * r) := by
    rw [← Int.zpow_le_iff_le_log (by norm_num) hrr]
    simpa using hlo
  have hb : Int.log 2 (r * r) < (Int.log 2 r + 1) + (Int.log 2 r + 1) := by
    rw [← Int.lt_zpow_iff_log_lt (by norm_num) hrr]
    simpa using hhi
  omega

/-- The rounded square root of the square of a value of the format is that value. -/
theorem sqrtNearest_sq (prec : Nat) (emin : ℤ) (r : ℚ) (hr : 0 ≤ r)
    (h : roundNearest prec emin r = r) : sqrtNearest prec emin (r * r) = r := by
  rcases eq_or_lt_of_le hr with h0 | hpos
  · subst h0
    unfold sqrtNearest
    simp
  · have hlog := log_sq_half hpos
    set u := ulpExp prec emin r with hu
    have hue : max (Int.log 2 (r * r) / 2) emin - ((prec : ℤ) - 1) = u := by
      rw [hlog, hu]
      unfold ulpExp
      rw [abs_of_pos hpos]
    have h2u : (0 : ℚ) < (2 : ℚ) ^ u := zpow_pos (by norm_num) u
    set K := roundHalfEven (r / 2 ^ u) with hK
    have hx : r = K * (2 : ℚ) ^ u := h.symm
    have hK0 : 0 ≤ K := by
      have : (0 : ℚ) ≤ (K : ℚ) := by
        have h3 : (0 : ℚ) < (K : ℚ) * (2 : ℚ) ^ u := by rw [← hx]; exact hpos
        exact le_of_lt (pos_of_mul_pos_left h3 (le_of_lt h2u))
      exact_mod_cast this
    obtain ⟨n, hn⟩ := Int.eq_ofNat_of_zero_le hK0
    have hxn : r = (n : ℚ) * (2 : ℚ) ^ u := by
      rw [hx, hn]
      simp
    have ht : r * r / ((2 : ℚ) ^ u * (2 : ℚ) ^ u) = ((n * n : ℕ) : ℚ) := by
      rw [div_eq_iff (ne_of_gt (mul_pos h2u h2u))]
      rw [hxn]
      push_cast
      ring
    unfold sqrtNearest
    simp only [hue, ht, Nat.floor_natCast, Nat.sqrt_eq]
    have hlt : ((n * n : ℕ) : ℚ) < ((n : ℚ) + 1 / 2) ^ 2 := by
      push_cast
      have : (0 : ℚ) ≤ (n : ℚ) := Nat.cast_nonneg n
      nlinarith
    rw [if_pos hlt]
    exact hxn.symm


theorem roundNearest_eval (prec : Nat) (emin : ℤ) (q : ℚ) (e : ℤ)
    (h1 : (2 : ℚ) ^ e ≤ |q|) (h2 : |q| < (2 : ℚ) ^ (e + 1)) (he : emin ≤ e) :
    roundNearest prec emin q =
      roundHalfEven (q / 2 ^ (e - ((prec : ℤ) - 1))) * 2 ^ (e - ((prec : ℤ) - 1)) := by
  have hu : ulpExp prec emin q = e - ((prec : ℤ) - 1) := by
    unfold ulpExp
    rw [log_two_eq h1 h2, max_eq_left he]
  unfold roundNearest
  rw [hu]

theorem roundHalfEven_of_gt (q : ℚ) (f : ℤ) (h1 : 1 / 2 < q - f) (h2 : q < f + 1) :
    roundHalfEven q = f + 1 := by
  have hf : Int.floor q = f := by
    rw [Int.floor_eq_iff]
    constructor <;> linarith
  unfold roundHalfEven
  simp only [hf]
  rw [if_neg (not_lt.mpr (le_of_lt h1)), if_pos h1]

theorem roundHalfEven_tie_even (q : ℚ) (f : ℤ) (h : q - f = 1 / 2) (he : f % 2 = 0) :
    roundHalfEven q = f := by
  have hf : Int.floor q = f := by
    rw [Int.floor_eq_iff]
    constructor <;> linarith
  unfold roundHalfEven
  simp only [hf]
  rw [if_neg (by rw [h]; exact lt_irrefl _), if_neg (by rw [h]; exact lt_irrefl _), if_pos he]

theorem isFloat_dyadic (m k : ℤ) (hm : |m| < 2 ^ 24) (hk : -149 ≤ k)
    (hb : |(m : ℚ) * (2 : ℚ) ^ k| < (2 : ℚ) ^ (128 : ℤ)) : IsFloat (m * (2 : ℚ) ^ k) := by
  unfold IsFloat roundFloat
  apply toFormat_of_exact
  · exact roundNearest_dyadic 24 (-126) m k hm (by push_cast; omega)
  · exact hb

/-- Every integer of magnitude below `2 ^ 24` is a `float`. -/
theorem isFloat_int (q : ℚ) (n : ℤ) (hq : q = n) (hn : |n| < 2 ^ 24) : IsFloat q := by
  have h := isFloat_dyadic n 0 hn (by norm_num) (by
    have h1 : ((|n| : ℤ) : ℚ) < ((2 ^ 24 : ℤ) : ℚ) := by exact_mod_cast hn
    have h2 : |(n : ℚ)| < (2 : ℚ) ^ (24 : ℕ) := by
      push_cast at h1
      exact h1
    rw [zpow_zero, mul_one]
    exact lt_trans h2 (by norm_num))
  rw [zpow_zero, mul_one] at h
  rw [hq]
  exact h

theorem isFloat_zero : IsFloat 0 :=
  isFloat_int 0 0 (by norm_num) (by norm_num)

/-- A `float` is a dyadic rational with a significand below `2 ^ 24`. -/
theorem isFloat_repr (x : ℚ) (h : IsFloat x) :
    ∃ K u : ℤ, x = K * (2 : ℚ) ^ u ∧ |K| < 2 ^ 24 ∧ -149 ≤ u ∧ |x| < (2 : ℚ) ^ (128 : ℤ) := by
  unfold IsFloat roundFloat at h
  obtain ⟨h1, h2⟩ := toFormat_eq_finite 24 (-126) 127 x h
  obtain ⟨K, u, hx, hK, hu⟩ := roundNearest_repr 24 (-126) x h1
  refine ⟨K, u, hx, hK, ?_, ?_⟩
  · push_cast at hu
    omega
  · simpa using h2

/-- Every `float` is a `double`. -/
theorem roundNearest_double_of_isFloat (x : ℚ) (h : IsFloat x) :
    roundNearest 53 (-1022) x = x := by
  obtain ⟨K, u, hx, hK, hu, _⟩ := isFloat_repr x h
  rw [hx]
  exact roundNearest_dyadic 53 (-1022) K u (lt_trans hK (by norm_num)) (by push_cast; omega)

/-- The square of a `float` is a `double`: the product is exact. -/
theorem roundDouble_sq (x : ℚ) (h : IsFloat x) : roundDouble (x * x) = FP.finite (x * x) := by
  obtain ⟨K, u, hx, hK, hu, hb⟩ := isFloat_repr x h
  have hsq : x * x = ((K * K : ℤ) : ℚ) * (2 : ℚ) ^ (u + u) := by
    rw [hx, zpow_add₀ (by norm_num)]
    push_cast
    ring
  unfold roundDouble
  apply toFormat_of_exact
  · rw [hsq]
    apply roundNearest_dyadic 53 (-1022) (K * K) (u + u)
    · rw [abs_mul]
      have h0 : 0 ≤ |K| := abs_nonneg K
      have : |K| * |K| < 2 ^ 24 * 2 ^ 24 := by nlinarith
      exact lt_trans this (by norm_num)
    · push_cast
      omega
  · rw [abs_mul]
    have h0 : 0 ≤ |x| := abs_nonneg x
    have : |x| * |x| < (2 : ℚ) ^ (128 : ℤ) * (2 : ℚ) ^ (128 : ℤ) := by nlinarith
    exact lt_trans this (by norm_num)


/-! ## The rectifier -/

theorem stdMax_self (a : FP) : a.stdMax a = a := by
  unfold FP.stdMax
  split <;> rfl

/-- The computed distance of two `float` points is their Euclidean distance whenever the
coordinate differences and that distance are `float` values. -/
theorem floatDist_exact (xa ya xb yb d : ℚ)
    (hdx : IsFloat (xb - xa)) (hdy : IsFloat (yb - ya)) (hd : IsFloat d)
    (hlen : IsEuclideanLength (xb - xa) (yb - ya) d) :
    floatDist (Point2f.mk (.finite xa) (.finite ya)) (Point2f.mk (.finite xb) (.finite yb))
      = FP.finite d := by
  obtain ⟨hd0, hsq⟩ := hlen
  have h1 : (FP.finite xb).fsub (FP.finite xa) = FP.finite (xb - xa) := hdx
  have h2 : (FP.finite yb).fsub (FP.finite ya) = FP.finite (yb - ya) := hdy
  have h3 : (FP.finite (xb - xa)).dmul (FP.finite (xb - xa))
      = FP.finite ((xb - xa) * (xb - xa)) := roundDouble_sq _ hdx
  have h4 : (FP.finite (yb - ya)).dmul (FP.finite (yb - ya))
      = FP.finite ((yb - ya) * (yb - ya)) := roundDouble_sq _ hdy
  have h5 : (FP.finite ((xb - xa) * (xb - xa))).dadd (FP.finite ((yb - ya) * (yb - ya)))
      = FP.finite (d * d) := by
    show roundDouble _ = _
    rw [← hsq]
    exact roundDouble_sq d hd
  have h6 : (FP.finite (d * d)).dsqrt = FP.finite d := by
    show (if d * d < 0 then FP.nan else FP.finite (sqrtNearest 53 (-1022) (d * d))) = _
    rw [if_neg (not_lt.mpr (mul_nonneg hd0 hd0)),
      sqrtNearest_sq 53 (-1022) d hd0 (roundNearest_double_of_isFloat d hd)]
  unfold floatDist
  simp only [h1, h2, h3, h4, h5, h6]
  exact hd

theorem targetSize_four (s0 s1 s2 s3 : Point2f FP) :
    targetSize [s0, s1, s2, s3] =
      some ((floatDist s0 s1).stdMax (floatDist s3 s2),
            (floatDist s0 s3).stdMax (floatDist s1 s2)) := by
  rfl

/-- The call on a list of four corners whose target size is `(W, H)`. -/
theorem apply_four {Img Mx : Type} (lib : RectifierLib Img Mx) (src dest : Img)
    (p0 p1 p2 p3 : JavaPoint) (W H : FP)
    (hWH : targetSize (cornersAsPoints [p0, p1, p2, p3]) = some (W, H)) :
    applyPerspectiveTransformNative lib src dest [p0, p1, p2, p3] =
      some
        { dest := lib.warpPerspective src
            (lib.getPerspectiveTransform (cornersAsPoints [p0, p1, p2, p3]) (dstPointsOf W H))
            (truncToInt lib.castUndefined W, truncToInt lib.castUndefined H),
          invalidInput := false,
          pointsRead := 4,
          srcPoints := cornersAsPoints [p0, p1, p2, p3],
          dstPoints := dstPointsOf W H,
          homography := some
            (lib.getPerspectiveTransform (cornersAsPoints [p0, p1, p2, p3]) (dstPointsOf W H)),
          canvas := some (truncToInt lib.castUndefined W, truncToInt lib.castUndefined H) } := by
  have h : applyPerspectiveTransformNative lib src dest [p0, p1, p2, p3] =
      (targetSize (cornersAsPoints [p0, p1, p2, p3])).bind (fun wh =>
        some
          { dest := lib.warpPerspective src
              (lib.getPerspectiveTransform (cornersAsPoints [p0, p1, p2, p3])
                (dstPointsOf wh.1 wh.2))
              (truncToInt lib.castUndefined wh.1, truncToInt lib.castUndefined wh.2),
            invalidInput := false,
            pointsRead := 4,
            srcPoints := cornersAsPoints [p0, p1, p2, p3],
            dstPoints := dstPointsOf wh.1 wh.2,
            homography := some
              (lib.getPerspectiveTransform (cornersAsPoints [p0, p1, p2, p3])
                (dstPointsOf wh.1 wh.2)),
            canvas := some (truncToInt lib.castUndefined wh.1,
              truncToInt lib.castUndefined wh.2) }) := rfl
  rw [h, hWH]
  rfl

theorem truncToInt_finite (c : FP → Int) (q : ℚ) (h : |q| < 2 ^ 31) :
    truncToInt c (.finite q) = if 0 ≤ q then Int.floor q else Int.ceil q := by
  obtain ⟨h1, h2⟩ := abs_lt.mp h
  have hr : -(2 ^ 31) - 1 < q ∧ q < 2 ^ 31 := ⟨by linarith, h2⟩
  show (if -(2 ^ 31) - 1 < q ∧ q < 2 ^ 31 then (if 0 ≤ q then Int.floor q else Int.ceil q)
    else c (.finite q)) = _
  rw [if_pos hr]

theorem truncToInt_spec (c : FP → Int) (q : ℚ) (h : |q| < 2 ^ 31) :
    IsTruncTowardZero q (truncToInt c (.finite q)) := by
  rw [truncToInt_finite c q h]
  unfold IsTruncTowardZero
  by_cases h0 : 0 ≤ q
  · rw [if_pos h0]
    have hf : (0 : ℚ) ≤ (⌊q⌋ : ℚ) := by exact_mod_cast Int.floor_nonneg.mpr h0
    rw [abs_of_nonneg hf, abs_of_nonneg h0]
    exact ⟨Int.floor_le q, Int.lt_floor_add_one q, mul_nonneg hf h0⟩
  · rw [if_neg h0]
    have hq : q ≤ 0 := le_of_lt (not_le.mp h0)
    have hc : (⌈q⌉ : ℚ) ≤ 0 := by exact_mod_cast Int.ceil_le.mpr (by simpa using hq)
    rw [abs_of_nonpos hc, abs_of_nonpos hq]
    refine ⟨neg_le_neg (Int.le_ceil q), ?_, mul_nonneg_of_nonpos_of_nonpos hc hq⟩
    have := Int.ceil_lt_add_one q
    linarith

theorem truncToInt_intCast (c : FP → Int) (n : Int) (h : |n| < 2 ^ 31) :
    truncToInt c (.finite (n : ℚ)) = n := by
  have hq : |(n : ℚ)| < 2 ^ 31 := by
    have : ((|n| : ℤ) : ℚ) < ((2 ^ 31 : ℤ) : ℚ) := by exact_mod_cast h
    push_cast at this
    exact this
  rw [truncToInt_finite c _ hq]
  split
  · exact Int.floor_intCast n
  · exact Int.ceil_intCast n

/-- The target size of an axis-aligned rectangle of `float` points listed as
[TL, TR, BR, BL] whose side lengths are `float` values: its side lengths. -/
theorem targetSize_rectangle (x0 y0 x1 y1 : ℚ) (hx : x0 ≤ x1) (hy : y0 ≤ y1)
    (hW : IsFloat (x1 - x0)) (hH : IsFloat (y1 - y0)) :
    targetSize [⟨.finite x0, .finite y0⟩, ⟨.finite x1, .finite y0⟩,
        ⟨.finite x1, .finite y1⟩, ⟨.finite x0, .finite y1⟩]
      = some (FP.finite (x1 - x0), FP.finite (y1 - y0)) := by
  have hw : 0 ≤ x1 - x0 := sub_nonneg.mpr hx
  have hh : 0 ≤ y1 - y0 := sub_nonneg.mpr hy
  have z : ∀ t : ℚ, IsFloat (t - t) := fun t => by rw [sub_self]; exact isFloat_zero
  have e1 := floatDist_exact x0 y0 x1 y0 (x1 - x0) hW (z y0) hW
    ⟨hw, by rw [sub_self]; ring⟩
  have e2 := floatDist_exact x0 y1 x1 y1 (x1 - x0) hW (z y1) hW
    ⟨hw, by rw [sub_self]; ring⟩
  have e3 := floatDist_exact x0 y0 x0 y1 (y1 - y0) (z x0) hH hH
    ⟨hh, by rw [sub_self]; ring⟩
  have e4 := floatDist_exact x1 y0 x1 y1 (y1 - y0) (z x1) hH hH
    ⟨hh, by rw [sub_self]; ring⟩
  rw [targetSize_four, e1, e2, e3, e4, stdMax_self, stdMax_self]

theorem toFloat_of_isFloat (q : ℚ) (h : IsFloat q) : (FP.finite q).toFloat = FP.finite q :=
  h


theorem toFormat_of_round (prec : Nat) (emin emax : ℤ) (q r : ℚ)
    (h : roundNearest prec emin q = r) (hb : |r| < (2 : ℚ) ^ (emax + 1)) :
    toFormat prec emin emax q = FP.finite r := by
  unfold toFormat
  simp only [h, hb, if_true]

theorem isFloat_of_eq (q : ℚ) (m k : ℤ) (hq : q = m * (2 : ℚ) ^ k) (hm : |m| < 2 ^ 24)
    (hk : -149 ≤ k) (hb : |q| < (2 : ℚ) ^ (128 : ℤ)) : IsFloat q := by
  rw [hq] at hb ⊢
  exact isFloat_dyadic m k hm hk hb

/-- The `double` 100 - 2^-30 converts to the `float` 100. -/
theorem roundFloat_below_hundred :
    roundFloat (107374182399 / 1073741824) = FP.finite 100 := by
  apply toFormat_of_round
  · rw [roundNearest_eval 24 (-126) _ 6 (by rw [abs_of_pos (by norm_num)]; norm_num)
      (by rw [abs_of_pos (by norm_num)]; norm_num) (by norm_num)]
    have h : (107374182399 / 1073741824 : ℚ) / 2 ^ ((6 : ℤ) - (((24 : ℕ) : ℤ) - 1))
        = 107374182399 / 8192 := by norm_num
    rw [h, roundHalfEven_of_gt _ 13107199 (by norm_num) (by norm_num)]
    norm_num
  · norm_num

/-- The `double` 16777217 = 2^24 + 1 converts to the `float` 16777216. -/
theorem roundFloat_two_pow_24_succ : roundFloat 16777217 = FP.finite 16777216 := by
  apply toFormat_of_round
  · rw [roundNearest_eval 24 (-126) _ 24 (by rw [abs_of_pos (by norm_num)]; norm_num)
      (by rw [abs_of_pos (by norm_num)]; norm_num) (by norm_num)]
    have h : (16777217 : ℚ) / 2 ^ ((24 : ℤ) - (((24 : ℕ) : ℤ) - 1)) = 16777217 / 2 := by
      norm_num
    rw [h, roundHalfEven_tie_even _ 8388608 (by norm_num) (by decide)]
    norm_num
  · norm_num

/-! ## Claims on the rectifier -/

/-- Claim C2.  A corner list whose length is not 4 makes the call log the error and
return at once: no corner has been read, `srcPoints` and `dstPoints` are empty, no
homography has been computed, no canvas has been handed to a warp, and the destination
image is the one passed in.  A list of length 4 never takes that exit: the call returns
with all four corners read, a homography computed and the warp run. -/
theorem rectify_validates_corner_count {Img Mx : Type} (lib : RectifierLib Img Mx)
    (src dest : Img) (corners : List JavaPoint) :
    (corners.length ≠ 4 →
        applyPerspectiveTransformNative lib src dest corners =
          some { dest := dest, invalidInput := true, pointsRead := 0, srcPoints := [],
                 dstPoints := [], homography := none, canvas := none }) ∧
      (corners.length = 4 →
        ∃ st, applyPerspectiveTransformNative lib src dest corners = some st ∧
          st.invalidInput = false ∧ st.pointsRead = 4 ∧
          st.homography.isSome = true ∧ st.canvas.isSome = true) := by
  constructor
  · intro h
    unfold applyPerspectiveTransformNative
    simp only [h, ne_eq, not_false_eq_true, if_true]
  · intro h
    match corners, h with
    | [p0, p1, p2, p3], _ =>
      rw [apply_four lib src dest p0 p1 p2 p3 _ _ (targetSize_four _ _ _ _)]
      exact ⟨_, rfl, rfl, rfl, rfl, rfl⟩

/-- Claim C3 fails on a rectangle whose width is not a `float`.  On the quad
[(0,0), (a,0), (a,50), (0,50)] with a = 100 - 2^-30 both horizontal edges have Euclidean
length a, which truncates to 99; the code converts a to the `float` 100, so its target
width is 100 and the canvas is 100 wide. -/
theorem rectify_width_not_euclidean :
    IsEuclideanLength (107374182399 / 1073741824 - 0) (0 - 0) (107374182399 / 1073741824) ∧
      IsEuclideanLength (107374182399 / 1073741824 - 0) (50 - 50)
        (107374182399 / 1073741824) ∧
      IsTruncTowardZero (max (107374182399 / 1073741824) (107374182399 / 1073741824)) 99 ∧
      targetSize (cornersAsPoints
        [⟨.finite 0, .finite 0⟩, ⟨.finite (107374182399 / 1073741824), .finite 0⟩,
         ⟨.finite (107374182399 / 1073741824), .finite 50⟩, ⟨.finite 0, .finite 50⟩])
          = some (FP.finite 100, FP.finite 50) ∧
      (applyPerspectiveTransformNative refRectifierLib (0, 0) (0, 0)
        [⟨.finite 0, .finite 0⟩, ⟨.finite (107374182399 / 1073741824), .finite 0⟩,
         ⟨.finite (107374182399 / 1073741824), .finite 50⟩, ⟨.finite 0, .finite 50⟩]).map
          RectifyState.canvas = some (some (100, 50)) ∧
      (100 : ℚ) ≠ max (107374182399 / 1073741824) (107374182399 / 1073741824) := by
  have t0 : (FP.finite 0).toFloat = FP.finite 0 := isFloat_zero
  have t50 : (FP.finite 50).toFloat = FP.finite 50 :=
    isFloat_int 50 50 (by norm_num) (by norm_num)
  have ta : (FP.finite (107374182399 / 1073741824)).toFloat = FP.finite 100 :=
    roundFloat_below_hundred
  have hWH : targetSize (cornersAsPoints
      [⟨.finite 0, .finite 0⟩, ⟨.finite (107374182399 / 1073741824), .finite 0⟩,
       ⟨.finite (107374182399 / 1073741824), .finite 50⟩, ⟨.finite 0, .finite 50⟩])
        = some (FP.finite 100, FP.finite 50) := by
    simp only [cornersAsPoints, List.map, t0, t50, ta]
    have h := targetSize_rectangle 0 0 100 50 (by norm_num) (by norm_num)
      (isFloat_int _ 100 (by norm_num) (by norm_num))
      (isFloat_int _ 50 (by norm_num) (by norm_num))
    simp only [sub_zero] at h
    exact h
  refine ⟨⟨by norm_num, by norm_num⟩, ⟨by norm_num, by norm_num⟩, ?_, hWH, ?_, by norm_num⟩
  · unfold IsTruncTowardZero
    rw [max_self, abs_of_pos (by norm_num), abs_of_pos (by norm_num)]
    norm_num
  · rw [apply_four refRectifierLib (0, 0) (0, 0) _ _ _ _ _ _ hWH]
    simp only [Option.map_some']
    rw [show (100 : ℚ) = ((100 : ℤ) : ℚ) by norm_num, show (50 : ℚ) = ((50 : ℤ) : ℚ) by norm_num,
      truncToInt_intCast _ 100 (by norm_num), truncToInt_intCast _ 50 (by norm_num)]

/-- Claim C3 as amended.  On every 4-point input [p0, p1, p2, p3] the call returns.  With
q0..q3 the corners converted to `float`, the target width is
W = max(dist(q0,q1), dist(q3,q2)) and the target height is
H = max(dist(q0,q3), dist(q1,q2)), dist the Euclidean distance as `float` arithmetic
computes it.  The destination rectangle is (0,0), (W,0), (W,H), (0,H) with the `float`s
W and H as computed, the homography is computed from that rectangle, and only the canvas
handed to the warp holds W and H cast to integers: truncated toward zero when they are
finite and below 2^31 in magnitude.  The computed distance is the Euclidean distance
whenever the coordinate differences and that distance are `float` values. -/
theorem rectify_target_size {Img Mx : Type} (lib : RectifierLib Img Mx) (src dest : Img)
    (p0 p1 p2 p3 : JavaPoint) :
    ∃ st W H, applyPerspectiveTransformNative lib src dest [p0, p1, p2, p3] = some st ∧
      st.srcPoints =
        [⟨p0.x.toFloat, p0.y.toFloat⟩, ⟨p1.x.toFloat, p1.y.toFloat⟩,
         ⟨p2.x.toFloat, p2.y.toFloat⟩, ⟨p3.x.toFloat, p3.y.toFloat⟩] ∧
      W = (floatDist ⟨p0.x.toFloat, p0.y.toFloat⟩ ⟨p1.x.toFloat, p1.y.toFloat⟩).stdMax
            (floatDist ⟨p3.x.toFloat, p3.y.toFloat⟩ ⟨p2.x.toFloat, p2.y.toFloat⟩) ∧
      H = (floatDist ⟨p0.x.toFloat, p0.y.toFloat⟩ ⟨p3.x.toFloat, p3.y.toFloat⟩).stdMax
            (floatDist ⟨p1.x.toFloat, p1.y.toFloat⟩ ⟨p2.x.toFloat, p2.y.toFloat⟩) ∧
      st.dstPoints = [⟨.finite 0, .finite 0⟩, ⟨W, .finite 0⟩, ⟨W, H⟩, ⟨.finite 0, H⟩] ∧
      st.homography = some (lib.getPerspectiveTransform st.srcPoints st.dstPoints) ∧
      st.canvas = some (truncToInt lib.castUndefined W, truncToInt lib.castUndefined H) ∧
      st.dest = lib.warpPerspective src
        (lib.getPerspectiveTransform st.srcPoints st.dstPoints)
        (truncToInt lib.castUndefined W, truncToInt lib.castUndefined H) ∧
      (∀ w : ℚ, W = .finite w → |w| < 2 ^ 31 →
        IsTruncTowardZero w (truncToInt lib.castUndefined W)) ∧
      (∀ h : ℚ, H = .finite h → |h| < 2 ^ 31 →
        IsTruncTowardZero h (truncToInt lib.castUndefined H)) ∧
      (∀ xa ya xb yb d : ℚ, IsFloat (xb - xa) → IsFloat (yb - ya) → IsFloat d →
        IsEuclideanLength (xb - xa) (yb - ya) d →
        floatDist ⟨.finite xa, .finite ya⟩ ⟨.finite xb, .finite yb⟩ = .finite d) := by
  have hWH := targetSize_four (Point2f.mk p0.x.toFloat p0.y.toFloat)
    (Point2f.mk p1.x.toFloat p1.y.toFloat) (Point2f.mk p2.x.toFloat p2.y.toFloat)
    (Point2f.mk p3.x.toFloat p3.y.toFloat)
  rw [apply_four lib src dest p0 p1 p2 p3 _ _ hWH]
  refine ⟨_, _, _, rfl, rfl, rfl, rfl, rfl, rfl, rfl, rfl, ?_, ?_, ?_⟩
  · intro w hw hr
    rw [hw]
    exact truncToInt_spec _ w hr
  · intro h hh hr
    rw [hh]
    exact truncToInt_spec _ h hr
  · intro xa ya xb yb d h1 h2 h3 h4
    exact floatDist_exact xa ya xb yb d h1 h2 h3 h4


/-- Claim C7 fails on a rectangle with a corner that is not a `float`.  The quad
[(0,0), (16777217,0), (16777217,1), (0,1)] has the integer side lengths W = 16777217 and
H = 1; the code converts 16777217 to the `float` 16777216, and the canvas handed to the
warp is 16777216 wide. -/
theorem rectify_rectangle_canvas_off_by_one :
    ((16777217 : ℚ) - 0 = ((16777217 : Int) : ℚ) ∧ (1 : ℚ) - 0 = ((1 : Int) : ℚ)) ∧
      (applyPerspectiveTransformNative refRectifierLib (0, 0) (0, 0)
        [⟨.finite 0, .finite 0⟩, ⟨.finite 16777217, .finite 0⟩,
         ⟨.finite 16777217, .finite 1⟩, ⟨.finite 0, .finite 1⟩]).map RectifyState.canvas
          = some (some (16777216, 1)) ∧
      (applyPerspectiveTransformNative refRectifierLib (0, 0) (0, 0)
        [⟨.finite 0, .finite 0⟩, ⟨.finite 16777217, .finite 0⟩,
         ⟨.finite 16777217, .finite 1⟩, ⟨.finite 0, .finite 1⟩]).map RectifyState.canvas
          ≠ some (some (16777217, 1)) := by
  have t0 : (FP.finite 0).toFloat = FP.finite 0 := isFloat_zero
  have t1 : (FP.finite 1).toFloat = FP.finite 1 := isFloat_int 1 1 (by norm_num) (by norm_num)
  have tb : (FP.finite 16777217).toFloat = FP.finite 16777216 := roundFloat_two_pow_24_succ
  have hWH : targetSize (cornersAsPoints
      [⟨.finite 0, .finite 0⟩, ⟨.finite 16777217, .finite 0⟩,
       ⟨.finite 16777217, .finite 1⟩, ⟨.finite 0, .finite 1⟩])
        = some (FP.finite 16777216, FP.finite 1) := by
    simp only [cornersAsPoints, List.map, t0, t1, tb]
    have h := targetSize_rectangle 0 0 16777216 1 (by norm_num) (by norm_num)
      (isFloat_of_eq _ 1 24 (by norm_num) (by norm_num) (by norm_num)
        (by rw [abs_of_pos (by norm_num)]; norm_num))
      (isFloat_int _ 1 (by norm_num) (by norm_num))
    simp only [sub_zero] at h
    exact h
  have hc : (applyPerspectiveTransformNative refRectifierLib (0, 0) (0, 0)
      [⟨.finite 0, .finite 0⟩, ⟨.finite 16777217, .finite 0⟩,
       ⟨.finite 16777217, .finite 1⟩, ⟨.finite 0, .finite 1⟩]).map RectifyState.canvas
        = some (some (16777216, 1)) := by
    rw [apply_four refRectifierLib (0, 0) (0, 0) _ _ _ _ _ _ hWH]
    simp only [Option.map_some']
    rw [show (16777216 : ℚ) = ((16777216 : ℤ) : ℚ) by norm_num,
      show (1 : ℚ) = ((1 : ℤ) : ℚ) by norm_num,
      truncToInt_intCast _ 16777216 (by norm_num), truncToInt_intCast _ 1 (by norm_num)]
  refine ⟨⟨by norm_num, by norm_num⟩, hc, ?_⟩
  rw [hc]
  decide

/-- Claim C7 as amended.  For every axis-aligned rectangle
[(x0,y0), (x1,y0), (x1,y1), (x0,y1)] whose coordinates are `float` values, with integer
side lengths W = x1-x0 > 0 and H = y1-y0 > 0 that are `float` values below 2^31, the call
returns and the canvas handed to the warp is exactly W wide and H high: it has the side
lengths of the quad, and so its aspect ratio. -/
theorem rectify_rectangle_canvas {Img Mx : Type} (lib : RectifierLib Img Mx) (src dest : Img)
    (x0 y0 x1 y1 : ℚ) (W H : Int)
    (hx0 : IsFloat x0) (hy0 : IsFloat y0) (hx1 : IsFloat x1) (hy1 : IsFloat y1)
    (hW : x1 - x0 = W) (hH : y1 - y0 = H) (hWpos : 0 < W) (hHpos : 0 < H)
    (hWf : IsFloat W) (hHf : IsFloat H) (hWr : W < 2 ^ 31) (hHr : H < 2 ^ 31) :
    ∃ st, applyPerspectiveTransformNative lib src dest
          [⟨.finite x0, .finite y0⟩, ⟨.finite x1, .finite y0⟩,
           ⟨.finite x1, .finite y1⟩, ⟨.finite x0, .finite y1⟩] = some st ∧
      st.canvas = some (W, H) ∧
      st.dstPoints = dstPointsOf (.finite W) (.finite H) := by
  have hx : x0 ≤ x1 := by
    have : (0 : ℚ) < (W : ℚ) := by exact_mod_cast hWpos
    linarith
  have hy : y0 ≤ y1 := by
    have : (0 : ℚ) < (H : ℚ) := by exact_mod_cast hHpos
    linarith
  have t1 : (FP.finite x0).toFloat = FP.finite x0 := hx0
  have t2 : (FP.finite y0).toFloat = FP.finite y0 := hy0
  have t3 : (FP.finite x1).toFloat = FP.finite x1 := hx1
  have t4 : (FP.finite y1).toFloat = FP.finite y1 := hy1
  have hWH : targetSize (cornersAsPoints
      [⟨.finite x0, .finite y0⟩, ⟨.finite x1, .finite y0⟩,
       ⟨.finite x1, .finite y1⟩, ⟨.finite x0, .finite y1⟩])
        = some (FP.finite (W : ℚ), FP.finite (H : ℚ)) := by
    simp only [cornersAsPoints, List.map, t1, t2, t3, t4]
    rw [← hW, ← hH]
    exact targetSize_rectangle x0 y0 x1 y1 hx hy (by rw [hW]; exact hWf) (by rw [hH]; exact hHf)
  rw [apply_four lib src dest _ _ _ _ _ _ hWH]
  refine ⟨_, rfl, ?_, rfl⟩
  have hWa : |W| < 2 ^ 31 := abs_lt.mpr ⟨by omega, hWr⟩
  have hHa : |H| < 2 ^ 31 := abs_lt.mpr ⟨by omega, hHr⟩
  simp only [truncToInt_intCast _ W hWa, truncToInt_intCast _ H hHa]

/-- Witness of claim C7: the quad [(0,0), (100,0), (100,50), (0,50)] gives a canvas 100
wide and 50 high. -/
theorem rectify_rectangle_canvas_witness :
    ∃ st, applyPerspectiveTransformNative refRectifierLib (0, 0) (0, 0)
          [⟨.finite 0, .finite 0⟩, ⟨.finite 100, .finite 0⟩,
           ⟨.finite 100, .finite 50⟩, ⟨.finite 0, .finite 50⟩] = some st ∧
      st.canvas = some (100, 50) ∧
      st.dstPoints = dstPointsOf (.finite ((100 : Int) : ℚ)) (.finite ((50 : Int) : ℚ)) :=
  rectify_rectangle_canvas refRectifierLib (0, 0) (0, 0) 0 0 100 50 100 50
    isFloat_zero isFloat_zero
    (isFloat_int _ 100 (by norm_num) (by norm_num))
    (isFloat_int _ 50 (by norm_num) (by norm_num))
    (by norm_num) (by norm_num) (by decide) (by decide)
    (isFloat_int _ 100 rfl (by norm_num)) (isFloat_int _ 50 rfl (by norm_num))
    (by decide) (by decide)

/-- The target size of the quad [(0,0), (10.75,0), (10.75,5), (0,5)]. -/
theorem targetSize_claimed_quad :
    targetSize (cornersAsPoints
        [⟨.finite 0, .finite 0⟩, ⟨.finite (43 / 4), .finite 0⟩,
         ⟨.finite (43 / 4), .finite 5⟩, ⟨.finite 0, .finite 5⟩])
      = some (FP.finite (43 / 4), FP.finite 5) := by
  have hq : IsFloat (43 / 4) :=
    isFloat_of_eq _ 43 (-2) (by norm_num) (by norm_num) (by norm_num)
      (by rw [abs_of_pos (by norm_num)]; norm_num)
  have t0 : (FP.finite 0).toFloat = FP.finite 0 := isFloat_zero
  have t5 : (FP.finite 5).toFloat = FP.finite 5 := isFloat_int 5 5 (by norm_num) (by norm_num)
  have tq : (FP.finite (43 / 4)).toFloat = FP.finite (43 / 4) := hq
  simp only [cornersAsPoints, List.map, t0, t5, tq]
  have h := targetSize_rectangle 0 0 (43 / 4) 5 (by norm_num) (by norm_num)
    (by rw [sub_zero]; exact hq) (isFloat_int _ 5 (by norm_num) (by norm_num))
  simp only [sub_zero] at h
  exact h

/-- Claim C8 fails on its own example.  On the quad [(0,0), (10.75,0), (10.75,5), (0,5)]
the target size is (10.75, 5) and the canvas handed to the warp is (10, 5), while
rounding to the nearest integer gives (11, 5). -/
theorem rectify_canvas_not_rounded :
    targetSize (cornersAsPoints
        [⟨.finite 0, .finite 0⟩, ⟨.finite (43 / 4), .finite 0⟩,
         ⟨.finite (43 / 4), .finite 5⟩, ⟨.finite 0, .finite 5⟩])
          = some (FP.finite (43 / 4), FP.finite 5) ∧
      (applyPerspectiveTransformNative refRectifierLib (0, 0) (0, 0)
        [⟨.finite 0, .finite 0⟩, ⟨.finite (43 / 4), .finite 0⟩,
         ⟨.finite (43 / 4), .finite 5⟩, ⟨.finite 0, .finite 5⟩]).map RectifyState.canvas
          = some (some (10, 5)) ∧
      (round (43 / 4 : ℚ), round (5 : ℚ)) = ((11 : Int), (5 : Int)) ∧
      (applyPerspectiveTransformNative refRectifierLib (0, 0) (0, 0)
        [⟨.finite 0, .finite 0⟩, ⟨.finite (43 / 4), .finite 0⟩,
         ⟨.finite (43 / 4), .finite 5⟩, ⟨.finite 0, .finite 5⟩]).map RectifyState.canvas
          ≠ some (some (round (43 / 4 : ℚ), round (5 : ℚ))) := by
  have hWH := targetSize_claimed_quad
  have ht1 : truncToInt refRectifierLib.castUndefined (.finite (43 / 4)) = 10 := by
    rw [truncToInt_finite _ _ (by rw [abs_of_pos (by norm_num)]; norm_num),
      if_pos (by norm_num), Int.floor_eq_iff]
    norm_num
  have ht2 : truncToInt refRectifierLib.castUndefined (.finite 5) = 5 := by
    rw [show (5 : ℚ) = ((5 : ℤ) : ℚ) by norm_num]
    exact truncToInt_intCast _ 5 (by norm_num)
  have hr1 : round (43 / 4 : ℚ) = 11 := by
    rw [round_eq, Int.floor_eq_iff]
    norm_num
  have hr2 : round (5 : ℚ) = 5 := round_intCast 5
  have hc : (applyPerspectiveTransformNative refRectifierLib (0, 0) (0, 0)
      [⟨.finite 0, .finite 0⟩, ⟨.finite (43 / 4), .finite 0⟩,
       ⟨.finite (43 / 4), .finite 5⟩, ⟨.finite 0, .finite 5⟩]).map RectifyState.canvas
        = some (some (10, 5)) := by
    rw [apply_four refRectifierLib (0, 0) (0, 0) _ _ _ _ _ _ hWH]
    simp only [Option.map_some', ht1, ht2]
  refine ⟨hWH, hc, by rw [hr1, hr2], ?_⟩
  rw [hc, hr1, hr2]
  decide

/-- Claim C8 as amended.  On every 4-point input whose target width W and target height
H, the `float`s the code computes, are finite and below 2^31 in magnitude, the call
returns and the canvas handed to the warp is (W, H) with each length truncated toward
zero: the fractional part is dropped.  A length that is not negative is never rounded
up. -/
theorem rectify_canvas_truncated {Img Mx : Type} (lib : RectifierLib Img Mx) (src dest : Img)
    (p0 p1 p2 p3 : JavaPoint) (W H : ℚ)
    (hWH : targetSize (cornersAsPoints [p0, p1, p2, p3]) = some (.finite W, .finite H))
    (hW : |W| < 2 ^ 31) (hH : |H| < 2 ^ 31) :
    ∃ st cw ch, applyPerspectiveTransformNative lib src dest [p0, p1, p2, p3] = some st ∧
      targetSize st.srcPoints = some (.finite W, .finite H) ∧
      st.canvas = some (cw, ch) ∧
      IsTruncTowardZero W cw ∧ IsTruncTowardZero H ch ∧
      (0 ≤ W → (cw : ℚ) ≤ W ∧ W < cw + 1) ∧ (0 ≤ H → (ch : ℚ) ≤ H ∧ H < ch + 1) := by
  have hfloor : ∀ q : ℚ, |q| < 2 ^ 31 → 0 ≤ q →
      (truncToInt lib.castUndefined (.finite q) : ℚ) ≤ q ∧
        q < truncToInt lib.castUndefined (.finite q) + 1 := by
    intro q hr hq
    rw [truncToInt_finite _ q hr, if_pos hq]
    exact ⟨Int.floor_le q, Int.lt_floor_add_one q⟩
  rw [apply_four lib src dest p0 p1 p2 p3 _ _ hWH]
  exact ⟨_, _, _, rfl, hWH, rfl, truncToInt_spec _ W hW, truncToInt_spec _ H hH,
    hfloor W hW, hfloor H hH⟩

/-- Witness of claim C8 as amended: the quad [(0,0), (10.75,0), (10.75,5), (0,5)], whose
target size is (10.75, 5). -/
theorem rectify_canvas_truncated_witness :
    ∃ st cw ch, applyPerspectiveTransformNative refRectifierLib (0, 0) (0, 0)
          [⟨.finite 0, .finite 0⟩, ⟨.finite (43 / 4), .finite 0⟩,
           ⟨.finite (43 / 4), .finite 5⟩, ⟨.finite 0, .finite 5⟩] = some st ∧
      targetSize st.srcPoints = some (.finite (43 / 4), .finite 5) ∧
      st.canvas = some (cw, ch) ∧
      IsTruncTowardZero (43 / 4) cw ∧ IsTruncTowardZero 5 ch ∧
      ((0 : ℚ) ≤ 43 / 4 → (cw : ℚ) ≤ 43 / 4 ∧ (43 / 4 : ℚ) < cw + 1) ∧
      ((0 : ℚ) ≤ 5 → (ch : ℚ) ≤ 5 ∧ (5 : ℚ) < ch + 1) :=
  rectify_canvas_truncated refRectifierLib (0, 0) (0, 0) _ _ _ _ (43 / 4) 5
    targetSize_claimed_quad
    (by rw [abs_of_pos (by norm_num)]; norm_num)
    (by rw [abs_of_pos (by norm_num)]; norm_num)

/-- Claim C9, evaluated on the rectangle with corners (0,0), (3,0), (3,4), (0,4).  The
detector returns [(0,0), (3,0), (0,4), (3,4)]; the rectifier reads the last two as
bottom-right and bottom-left, so both of its vertical edges are diagonals of the
rectangle: the target size is (3, 5), not (3, 4). -/
theorem detect_then_rectify_rectangle :
    orderCorners refDetectorLib [⟨0, 0⟩, ⟨3, 0⟩, ⟨3, 4⟩, ⟨0, 4⟩]
        = some [⟨0, 0⟩, ⟨3, 0⟩, ⟨0, 4⟩, ⟨3, 4⟩] ∧
      (orderCorners refDetectorLib [⟨0, 0⟩, ⟨3, 0⟩, ⟨3, 4⟩, ⟨0, 4⟩]).bind
        (fun rect => targetSize (cornersAsPoints (javaCorners rect)))
          = some (FP.finite 3, FP.finite 5) ∧
      (orderCorners refDetectorLib [⟨0, 0⟩, ⟨3, 0⟩, ⟨3, 4⟩, ⟨0, 4⟩]).bind
        (fun rect => targetSize (cornersAsPoints (javaCorners rect)))
          ≠ some (FP.finite (3 - 0), FP.finite (4 - 0)) := by
  have h : orderCorners refDetectorLib [⟨0, 0⟩, ⟨3, 0⟩, ⟨3, 4⟩, ⟨0, 4⟩]
      = some [⟨0, 0⟩, ⟨3, 0⟩, ⟨0, 4⟩, ⟨3, 4⟩] := by
    apply orderCorners_eq refDetectorLib stdSort_sortsBy_sumLess
    · simp only [toPoints2f, refDetectorLib, List.map]
      norm_num
      exact List.Perm.swap _ _ _
    all_goals norm_num
  have t0 : (FP.finite 0).toFloat = FP.finite 0 := isFloat_zero
  have t3 : (FP.finite 3).toFloat = FP.finite 3 := isFloat_int 3 3 (by norm_num) (by norm_num)
  have t4 : (FP.finite 4).toFloat = FP.finite 4 := isFloat_int 4 4 (by norm_num) (by norm_num)
  have f3 : IsFloat 3 := isFloat_int 3 3 (by norm_num) (by norm_num)
  have f5 : IsFloat 5 := isFloat_int 5 5 (by norm_num) (by norm_num)
  have ht : targetSize (cornersAsPoints (javaCorners [⟨0, 0⟩, ⟨3, 0⟩, ⟨0, 4⟩, ⟨3, 4⟩]))
      = some (FP.finite 3, FP.finite 5) := by
    simp only [cornersAsPoints, javaCorners, List.map, t0, t3, t4]
    have e1 := floatDist_exact 0 0 3 0 3
      (isFloat_int _ 3 (by norm_num) (by norm_num))
      (isFloat_int _ 0 (by norm_num) (by norm_num)) f3 ⟨by norm_num, by norm_num⟩
    have e2 := floatDist_exact 3 4 0 4 3
      (isFloat_int _ (-3) (by norm_num) (by norm_num))
      (isFloat_int _ 0 (by norm_num) (by norm_num)) f3 ⟨by norm_num, by norm_num⟩
    have e3 := floatDist_exact 0 0 3 4 5
      (isFloat_int _ 3 (by norm_num) (by norm_num))
      (isFloat_int _ 4 (by norm_num) (by norm_num)) f5 ⟨by norm_num, by norm_num⟩
    have e4 := floatDist_exact 3 0 0 4 5
      (isFloat_int _ (-3) (by norm_num) (by norm_num))
      (isFloat_int _ 4 (by norm_num) (by norm_num)) f5 ⟨by norm_num, by norm_num⟩
    rw [targetSize_four, e1, e2, e3, e4, stdMax_self, stdMax_self]
  refine ⟨h, ?_, ?_⟩
  · rw [h, Option.some_bind]
    exact ht
  · rw [h, Option.some_bind, ht]
    intro hne
    have h2 := (Prod.mk.inj (Option.some.inj hne)).2
    have h3 : (5 : ℚ) = 4 - 0 := FP.finite.inj h2
    norm_num at h3

/-! ## Witnesses of the detector claims -/

theorem shoelaceArea_unit_square :
    shoelaceArea [⟨0, 0⟩, ⟨1, 0⟩, ⟨1, 1⟩, ⟨0, 1⟩] = 1 := by
  norm_num [shoelaceArea, List.rotate]

theorem shoelaceArea_big_square :
    shoelaceArea [⟨0, 0⟩, ⟨10, 0⟩, ⟨10, 10⟩, ⟨0, 10⟩] = 100 := by
  norm_num [shoelaceArea, List.rotate]

/-- Witness of claim C5: of the unit square and the 10x10 square, listed in that
order, the contour whose vertices are returned is the 10x10 square. -/
theorem detect_selects_largest_area_witness :
    acceptedContour refDetectorLib
        [[⟨0, 0⟩, ⟨1, 0⟩, ⟨1, 1⟩, ⟨0, 1⟩], [⟨0, 0⟩, ⟨10, 0⟩, ⟨10, 10⟩, ⟨0, 10⟩]]
      = some [⟨0, 0⟩, ⟨10, 0⟩, ⟨10, 10⟩, ⟨0, 10⟩] := by
  obtain ⟨sel, r, hacc, _, _, _, _, _, _, h2⟩ :=
    detect_selects_largest_area refDetectorLib (stdSort_sortsBy_areaGreater refDetectorLib)
      stdSort_sortsBy_sumLess
      [[⟨0, 0⟩, ⟨1, 0⟩, ⟨1, 1⟩, ⟨0, 1⟩], [⟨0, 0⟩, ⟨10, 0⟩, ⟨10, 10⟩, ⟨0, 10⟩]]
      ⟨[⟨0, 0⟩, ⟨1, 0⟩, ⟨1, 1⟩, ⟨0, 1⟩], by simp, rfl⟩
  have hlt : refDetectorLib.contourArea [⟨0, 0⟩, ⟨1, 0⟩, ⟨1, 1⟩, ⟨0, 1⟩] <
      refDetectorLib.contourArea [⟨0, 0⟩, ⟨10, 0⟩, ⟨10, 10⟩, ⟨0, 10⟩] := by
    show shoelaceArea _ < shoelaceArea _
    rw [shoelaceArea_unit_square, shoelaceArea_big_square]
    norm_num
  have hsel := (h2 [⟨0, 0⟩, ⟨1, 0⟩, ⟨1, 1⟩, ⟨0, 1⟩] (by simp)
    [⟨0, 0⟩, ⟨10, 0⟩, ⟨10, 10⟩, ⟨0, 10⟩] (by simp) rfl rfl hlt).2
    (by
      intro c hc _
      simpa using hc)
  rw [hacc, hsel]

/-- Witness of claim C6: a triangle alone gives the empty list, and a triangle
followed by a square gives a list of 4 points. -/
theorem detect_empty_or_four_witness :
    detectDocumentCornersNative refDetectorLib [[⟨0, 0⟩, ⟨4, 0⟩, ⟨0, 3⟩]] = some [] ∧
      ∃ r, detectDocumentCornersNative refDetectorLib
          [[⟨0, 0⟩, ⟨4, 0⟩, ⟨0, 3⟩], [⟨0, 0⟩, ⟨1, 0⟩, ⟨1, 1⟩, ⟨0, 1⟩]] = some r ∧
        r.length = 4 := by
  constructor
  · refine (detect_empty_or_four refDetectorLib (stdSort_sortsBy_areaGreater refDetectorLib)
      stdSort_sortsBy_sumLess [[⟨0, 0⟩, ⟨4, 0⟩, ⟨0, 3⟩]]).1.mpr ?_
    intro c hc
    rw [List.mem_singleton] at hc
    rw [hc]
    show ([⟨0, 0⟩, ⟨4, 0⟩, ⟨0, 3⟩] : List Point).length ≠ 4
    decide
  · exact (detect_empty_or_four refDetectorLib (stdSort_sortsBy_areaGreater refDetectorLib)
      stdSort_sortsBy_sumLess
      [[⟨0, 0⟩, ⟨4, 0⟩, ⟨0, 3⟩], [⟨0, 0⟩, ⟨1, 0⟩, ⟨1, 1⟩, ⟨0, 1⟩]]).2.1
      ⟨[⟨0, 0⟩, ⟨1, 0⟩, ⟨1, 1⟩, ⟨0, 1⟩], by simp, rfl⟩

end DocuScanner
